import Mathlib

/-!
Verification development for the bicluster-based recommender repository.

The Python sources are shallowly embedded in Lean:
-- numpy float64 ratings are modelled as exact rationals, with `Option ℚ`
   (`none` = NaN) where a cell can hold NaN;
-- numpy int64 index arrays are modelled as `List ℕ`;
-- binary matrices are modelled as `BMat` (dimensions plus a cell function);
-- exceptions are modelled with `Except` / explicit error constructors.
-/

section ListUtil

/-- Insert a natural number into a strictly sorted list, keeping it strictly
sorted (duplicates are dropped). -/
def insertSorted (x : ℕ) : List ℕ → List ℕ
  | [] => [x]
  | y :: ys =>
    if x < y then x :: y :: ys
    else if x = y then y :: ys
    else y :: insertSorted x ys

/-- Sort a list ascending and drop duplicates; this is the canonical
sorted-unique form that numpy set routines (`np.union1d`, `np.intersect1d`,
`np.unique`) return. -/
def sortDedup (l : List ℕ) : List ℕ := l.foldr insertSorted []

theorem mem_insertSorted {x a : ℕ} : ∀ {l : List ℕ},
    a ∈ insertSorted x l ↔ a = x ∨ a ∈ l := by
  intro l
  induction l with
  | nil => simp [insertSorted]
  | cons y ys ih =>
    by_cases h1 : x < y
    · simp [insertSorted, h1]
    · by_cases h2 : x = y
      · have hrw : insertSorted x (y :: ys) = y :: ys := by
          simp [insertSorted, h1, h2]
        rw [hrw]
        constructor
        · exact fun h => Or.inr h
        · rintro (rfl | h)
          · rw [h2]; exact List.mem_cons_self y ys
          · exact h
      · simp only [insertSorted, if_neg h1, if_neg h2, List.mem_cons, ih]
        tauto

theorem sorted_insertSorted {x : ℕ} : ∀ {l : List ℕ},
    l.Sorted (· < ·) → (insertSorted x l).Sorted (· < ·) := by
  intro l
  induction l with
  | nil => intro _; simp [insertSorted]
  | cons y ys ih =>
    intro hs
    rcases List.sorted_cons.mp hs with ⟨hy, hys⟩
    by_cases h1 : x < y
    · have hx : ∀ b ∈ y :: ys, x < b := by
        intro b hb
        rcases List.mem_cons.mp hb with rfl | hb
        · exact h1
        · exact lt_trans h1 (hy b hb)
      simp only [insertSorted, if_pos h1]
      exact List.sorted_cons.mpr ⟨hx, hs⟩
    · by_cases h2 : x = y
      · subst h2
        simpa [insertSorted, h1] using hs
      · have hyx : y < x := by omega
        simp only [insertSorted, if_neg h1, if_neg h2]
        refine List.sorted_cons.mpr ⟨?_, ih hys⟩
        intro b hb
        rcases mem_insertSorted.mp hb with rfl | hb
        · exact hyx
        · exact hy b hb

theorem mem_sortDedup {a : ℕ} : ∀ {l : List ℕ}, a ∈ sortDedup l ↔ a ∈ l := by
  intro l
  induction l with
  | nil => simp [sortDedup]
  | cons x xs ih =>
    simp only [sortDedup, List.foldr_cons]
    rw [mem_insertSorted]
    simp only [sortDedup] at ih
    rw [ih]
    simp

theorem sorted_sortDedup : ∀ (l : List ℕ), (sortDedup l).Sorted (· < ·) := by
  intro l
  induction l with
  | nil => simp [sortDedup]
  | cons x xs ih => exact sorted_insertSorted ih

theorem nodup_of_sorted_lt {l : List ℕ} (h : l.Sorted (· < ·)) : l.Nodup :=
  h.nodup

/-- Two strictly sorted lists with the same members are equal. -/
theorem sorted_lt_eq_of_mem_iff : ∀ {l₁ l₂ : List ℕ},
    l₁.Sorted (· < ·) → l₂.Sorted (· < ·) → (∀ a, a ∈ l₁ ↔ a ∈ l₂) → l₁ = l₂ := by
  intro l₁
  induction l₁ with
  | nil =>
    intro l₂ _ _ hmem
    cases l₂ with
    | nil => rfl
    | cons b bs => exact absurd ((hmem b).mpr (by simp)) (by simp)
  | cons a as ih =>
    intro l₂ h₁ h₂ hmem
    cases l₂ with
    | nil => exact absurd ((hmem a).mp (by simp)) (by simp)
    | cons b bs =>
      rcases List.sorted_cons.mp h₁ with ⟨ha, has⟩
      rcases List.sorted_cons.mp h₂ with ⟨hb, hbs⟩
      have hab : a = b := by
        rcases List.mem_cons.mp ((hmem a).mp (by simp)) with h | h
        · exact h
        · rcases List.mem_cons.mp ((hmem b).mpr (by simp)) with h' | h'
          · omega
          · have := ha b h'
            have := hb a h
            omega
      subst hab
      have : as = bs := by
        refine ih has hbs ?_
        intro x
        constructor
        · intro hx
          rcases List.mem_cons.mp ((hmem x).mp (by simp [hx])) with rfl | h
          · exact absurd (ha x hx) (lt_irrefl x)
          · exact h
        · intro hx
          rcases List.mem_cons.mp ((hmem x).mpr (by simp [hx])) with rfl | h
          · exact absurd (hb x hx) (lt_irrefl x)
          · exact h
      rw [this]

/-- Model of `np.union1d`: sorted unique union of two index arrays. -/
def union1d (a b : List ℕ) : List ℕ := sortDedup (a ++ b)

theorem mem_union1d {x : ℕ} {a b : List ℕ} :
    x ∈ union1d a b ↔ x ∈ a ∨ x ∈ b := by
  simp [union1d, mem_sortDedup]

theorem sorted_union1d (a b : List ℕ) : (union1d a b).Sorted (· < ·) :=
  sorted_sortDedup _

/-- Model of `np.intersect1d`: sorted unique common values of two arrays. -/
def intersect1d (a b : List ℕ) : List ℕ :=
  sortDedup (a.filter (fun x => decide (x ∈ b)))

theorem mem_intersect1d {x : ℕ} {a b : List ℕ} :
    x ∈ intersect1d a b ↔ x ∈ a ∧ x ∈ b := by
  simp [intersect1d, mem_sortDedup, List.mem_filter]

theorem length_intersect1d_le_right (a b : List ℕ) :
    (intersect1d a b).length ≤ b.length := by
  have hnd : (intersect1d a b).Nodup := nodup_of_sorted_lt (sorted_sortDedup _)
  have hsub : (intersect1d a b).toFinset ⊆ b.toFinset := by
    intro x hx
    rw [List.mem_toFinset] at *
    exact (mem_intersect1d.mp hx).2
  calc (intersect1d a b).length = (intersect1d a b).toFinset.card :=
        (List.toFinset_card_of_nodup hnd).symm
    _ ≤ b.toFinset.card := Finset.card_le_card hsub
    _ ≤ b.length := b.toFinset_card_le

end ListUtil

/-- Modelled Python `AssertionError`, `ZeroDivisionError`, `TypeError` and the
prediction-time exceptions of the recommenders (`surprise.PredictionImpossible`
carries a message; each distinct message is a constructor).  `fuelExhausted` is
an artifact of embedding the unbounded `while` loops with an explicit fuel
parameter; the development proves it unreachable for the inputs of interest. -/
inductive PyErr where
  | assertionError
  | unknownEntity
  | notEnoughNeighbors
  | notInNeighborhood
  | noValidNeighbors
  | sumOfSimilaritiesZero
  | typeErrorUnpack
  | zeroDivisionError
  | fuelExhausted
  deriving DecidableEq, Repr

namespace FormalConceptAnalysis

/-- A formal concept / bicluster: `Concept = namedtuple("Concept", "extent intent")`
from `pattern_mining/formal_concept_analysis.py`. Extents hold row indices,
intents hold column indices. -/
structure Concept where
  extent : List ℕ
  intent : List ℕ
  deriving DecidableEq, Repr

end FormalConceptAnalysis

namespace RecommendersCommon

open FormalConceptAnalysis

/-- `user_pattern_similarity` from `recommenders/common.py`:
`|I_u ∩ I_p| / |I_p|`, with an explicit guard returning `0.0` when the
pattern's intent is empty.  The intersection size is computed (as in the
source) before the guard. -/
def user_pattern_similarity (user : List ℕ) (pattern : Concept) : ℚ :=
  let number_of_itens_from_pattern_in_user := (intersect1d user pattern.intent).length
  if pattern.intent.length = 0 then 0
  else (number_of_itens_from_pattern_in_user : ℚ) / (pattern.intent.length : ℚ)

/-- `weight_frequency` from `recommenders/common.py`:
`|U_p| * user_pattern_similarity(user, pattern)`. -/
def weight_frequency (user : List ℕ) (pattern : Concept) : ℚ :=
  (pattern.extent.length : ℚ) * user_pattern_similarity user pattern

/-- `merge_biclusters` from `recommenders/common.py`: folds `np.union1d` over
the extents and intents, starting from empty arrays.  This version has no
assertions: an empty input list yields the empty bicluster. -/
def merge_biclusters (biclusters : List Concept) : Concept :=
  ⟨biclusters.foldl (fun acc b => union1d acc b.extent) [],
   biclusters.foldl (fun acc b => union1d acc b.intent) []⟩

end RecommendersCommon

namespace KnnBased

open FormalConceptAnalysis

/-- `merge_biclusters` from `recommenders/knn_based_recommenders.py`.  Unlike
the `recommenders/common.py` version, this one asserts a non-empty input list
and non-empty extents and intents before computing the same union fold. -/
def merge_biclusters (biclusters : List Concept) : Except PyErr Concept :=
  if biclusters.length = 0 then .error .assertionError
  else if ¬ biclusters.all (fun b => decide (0 < b.extent.length)) then .error .assertionError
  else if ¬ biclusters.all (fun b => decide (0 < b.intent.length)) then .error .assertionError
  else .ok (RecommendersCommon.merge_biclusters biclusters)

end KnnBased

namespace FormalConceptAnalysis

/-- A binary matrix (`np.ndarray` of dtype bool): explicit dimensions plus a
cell function.  Only cells with `r < n` and `c < m` exist in the numpy array;
the embedding's counting and closure operators range over those cells only. -/
structure BMat where
  n : ℕ
  m : ℕ
  f : ℕ → ℕ → Bool

/-- `np.count_nonzero` on a binary matrix: number of True cells. -/
def countTrue (U : BMat) : ℕ :=
  (((Finset.range U.n) ×ˢ (Finset.range U.m)).filter (fun p => U.f p.1 p.2)).card

/-- Modelled from the spec: the closure operator `_it` imported by
`formal_concept_analysis.py` from `dataset/binary_dataset.py`, whose source is
not part of this snapshot.  Per spec section 4.1, given a binary matrix and a
list of column indices it returns the rows that are True on every listed
column (operator `t`); applied to the transposed matrix it computes the
columns True on every listed row (operator `i`). -/
def _it (M : BMat) (cols : List ℕ) : List ℕ :=
  (List.range M.n).filter (fun r => cols.all (fun c => M.f r c))

/-- `binary_dataset.T`: numpy transpose. -/
def transposeB (M : BMat) : BMat := ⟨M.m, M.n, fun c r => M.f r c⟩

/-- `submatrix_intersection_size` from `formal_concept_analysis.py`: the
number of True cells of `U` inside the rectangle `rows × columns`
(double loop over the index lists). -/
def submatrix_intersection_size (rows columns : List ℕ) (U : BMat) : ℕ :=
  (rows.map (fun r => (columns.filter (fun c => U.f r c)).length)).sum

/-- `erase_submatrix_values` from `formal_concept_analysis.py`: sets every
cell of the rectangle `rows × columns` to False (the double assignment loop is
modelled as a pointwise update of the cell function). -/
def erase_submatrix_values (rows columns : List ℕ) (U : BMat) : BMat :=
  ⟨U.n, U.m, fun r c => if r ∈ rows ∧ c ∈ columns then false else U.f r c⟩

/-- The value `D_u_j_V` computed for a candidate column `j` in the inner loop
of `grecond` (lines 200-205): close `D ∪ {j}` to an extent via `_it` on the
dataset, re-close to an intent via `_it` on the transpose, and count the True
cells of `U` inside the closed rectangle. -/
def candidateV (M U : BMat) (D : List ℕ) (j : ℕ) : ℕ :=
  submatrix_intersection_size (_it M (D ++ [j]))
    (_it (transposeB M) (_it M (D ++ [j]))) U

/-- The closed intent `D_u_j_closed_intent` for a candidate column `j`. -/
def candidateIntent (M : BMat) (D : List ℕ) (j : ℕ) : List ℕ :=
  _it (transposeB M) (_it M (D ++ [j]))

/-- The `for j in js_not_in_D` pass of `grecond`'s inner loop: track the
strictly best candidate (`if D_u_j_V > best_D_u_j_V`), so the first-seen
candidate wins ties; the initial best is `(0, None)`. -/
def bestCandidate (M U : BMat) (js : List ℕ) (D : List ℕ) : ℕ × Option (List ℕ) :=
  js.foldl
    (fun best j =>
      if candidateV M U D j > best.1 then (candidateV M U D j, some (candidateIntent M D j))
      else best)
    (0, none)

/-- The `while searching` inner loop of `grecond`: adopt the best candidate
intent while it strictly improves `V`.  The loop is embedded with a fuel
parameter; since each adoption strictly increases `V`, which is bounded by the
cell count of the matrix, fuel `M.n * M.m + 1` makes the out-of-fuel fallback
(return the current state) unreachable.  Note that the source computes
`js_not_in_D` once per outer iteration, while `D_u_j` is still empty, so the
candidate set is always the full column range. -/
def innerLoop (M U : BMat) (js : List ℕ) : ℕ → List ℕ → ℕ → List ℕ × ℕ
  | 0, D, V => (D, V)
  | fuel + 1, D, V =>
    let b := bestCandidate M U js D
    if b.1 > V then innerLoop M U js fuel (b.2.getD D) b.1 else (D, V)

/-- The `while coverage > current_coverage` outer loop of `grecond`.  `cur` is
the `current_coverage` value from the previous iteration (initially `0`).
Inside the body, `np.count_nonzero(U) / initial_number_of_trues` divides by
zero when the matrix has no True cell (Python integer division raises
`ZeroDivisionError`).  Each iteration mines one concept, erases its rectangle
from `U` and recomputes the coverage. -/
def grecondLoop (M : BMat) (totalTrues : ℕ) (coverage : ℚ) :
    ℕ → BMat → List Concept → ℚ → Except PyErr (List Concept × ℚ)
  | 0, _, _, _ => .error .fuelExhausted
  | fuel + 1, U, F, cur =>
    if coverage > cur then
      if totalTrues = 0 then .error .zeroDivisionError
      else
        let DV := innerLoop M U (List.range M.m) (M.n * M.m + 1) [] 0
        let C := _it M DV.1
        let U2 := erase_submatrix_values C DV.1 U
        let cur2 : ℚ := 1 - (countTrue U2 : ℚ) / (totalTrues : ℚ)
        grecondLoop M totalTrues coverage fuel U2 (F ++ [⟨C, DV.1⟩]) cur2
    else .ok (F, cur)

/-- `grecond` from `formal_concept_analysis.py`: the GreConD greedy formal
concept mining algorithm.  The input assertions that are expressible in the
embedding (`binary_dataset.size > 0` and `0 < coverage <= 1`) are modelled as
an `assertionError`; dtype and dimensionality assertions hold by construction
of `BMat`.  The outer `while` loop is run with fuel `countTrue M + 1`, which
the development proves sufficient whenever the matrix has a True cell. -/
def grecond (M : BMat) (coverage : ℚ) : Except PyErr (List Concept × ℚ) :=
  if M.n = 0 ∨ M.m = 0 then .error .assertionError
  else if ¬ (0 < coverage ∧ coverage ≤ 1) then .error .assertionError
  else grecondLoop M (countTrue M) coverage (countTrue M + 1) M [] 0

/-- `get_factor_matrices_from_concepts` (and its numba kernel `_get_matrices`)
from `formal_concept_analysis.py`: `Af` has a column per concept with True at
the rows of its extent, `Bf` has a row per concept with True at the columns of
its intent.  The argument assertions (non-empty concept list, positive
dimensions) hold at every use in this development and are not modelled. -/
def get_factor_matrices_from_concepts (concepts : List Concept)
    (dataset_number_rows dataset_number_cols : ℕ) : BMat × BMat :=
  (⟨dataset_number_rows, concepts.length, fun r fi =>
      match concepts[fi]? with
      | some b => decide (r ∈ b.extent)
      | none => false⟩,
   ⟨concepts.length, dataset_number_cols, fun fi c =>
      match concepts[fi]? with
      | some b => decide (c ∈ b.intent)
      | none => false⟩)

/-- Boolean matrix product (`Af @ Bf` on numpy bool arrays): or of ands. -/
def boolMatMul (A B : BMat) : BMat :=
  ⟨A.n, B.m, fun r c => (List.range A.m).any (fun t => A.f r t && B.f t c)⟩

theorem mem_it {M : BMat} {cols : List ℕ} {r : ℕ} :
    r ∈ _it M cols ↔ r < M.n ∧ ∀ c ∈ cols, M.f r c = true := by
  simp [_it, List.mem_filter, List.all_eq_true]

theorem mem_it_transpose {M : BMat} {X : List ℕ} {c : ℕ} :
    c ∈ _it (transposeB M) X ↔ c < M.m ∧ ∀ r ∈ X, M.f r c = true := by
  simp [_it, transposeB, List.mem_filter, List.all_eq_true]

theorem nodup_it (M : BMat) (cols : List ℕ) : (_it M cols).Nodup :=
  (List.nodup_range _).filter _

theorem it_subset_range {M : BMat} {cols : List ℕ} {r : ℕ} (h : r ∈ _it M cols) :
    r < M.n := (mem_it.mp h).1

/-- The Galois-connection collapse used by GreConD: re-closing a closed extent
changes nothing, `t (i (t X)) = t X`, provided the column set `X` is in range. -/
theorem it_it_it (M : BMat) (X : List ℕ) (hX : ∀ c ∈ X, c < M.m) :
    _it M (_it (transposeB M) (_it M X)) = _it M X := by
  apply sorted_lt_eq_of_mem_iff
  · exact (List.pairwise_lt_range _).sublist (List.filter_sublist _)
  · exact (List.pairwise_lt_range _).sublist (List.filter_sublist _)
  · intro r
    rw [mem_it, mem_it]
    constructor
    · rintro ⟨hr, hall⟩
      refine ⟨hr, fun c hc => ?_⟩
      refine hall c (mem_it_transpose.mpr ⟨hX c hc, fun r' hr' => ?_⟩)
      exact (mem_it.mp hr').2 c hc
    · rintro ⟨hr, hall⟩
      refine ⟨hr, fun c hc => ?_⟩
      exact (mem_it_transpose.mp hc).2 r (mem_it.mpr ⟨hr, hall⟩)

theorem submatrix_intersection_size_pos {rows cols : List ℕ} {U : BMat}
    {r c : ℕ} (hr : r ∈ rows) (hc : c ∈ cols) (hU : U.f r c = true) :
    1 ≤ submatrix_intersection_size rows cols U := by
  unfold submatrix_intersection_size
  have hterm : 1 ≤ (cols.filter (fun c => U.f r c)).length := by
    have : c ∈ cols.filter (fun c => U.f r c) := List.mem_filter.mpr ⟨hc, hU⟩
    exact List.length_pos.mpr (List.ne_nil_of_mem this)
  have hmem : (cols.filter (fun c => U.f r c)).length ∈
      rows.map (fun r => (cols.filter (fun c => U.f r c)).length) :=
    List.mem_map.mpr ⟨r, hr, rfl⟩
  calc 1 ≤ (cols.filter (fun c => U.f r c)).length := hterm
    _ ≤ _ := List.single_le_sum (by intro x _; omega) _ hmem

/-- List double-count equals the Finset card of the filtered index rectangle
(for duplicate-free index lists). -/
theorem submatrix_intersection_size_eq_card {rows cols : List ℕ} {U : BMat}
    (hr : rows.Nodup) (hc : cols.Nodup) :
    submatrix_intersection_size rows cols U =
      ((rows.toFinset ×ˢ cols.toFinset).filter (fun p => U.f p.1 p.2)).card := by
  rw [Finset.card_filter, Finset.sum_product]
  have hinner : ∀ r : ℕ, (∑ c ∈ cols.toFinset, if U.f (r, c).1 (r, c).2 then 1 else 0) =
      (cols.filter (fun c => U.f r c)).length := by
    intro r
    rw [← Finset.card_filter]
    have : (cols.toFinset.filter (fun c => U.f r c)) = (cols.filter (fun c => U.f r c)).toFinset := by
      rw [List.toFinset_filter]
    rw [this, List.toFinset_card_of_nodup (hc.filter _)]
  calc submatrix_intersection_size rows cols U
      = (rows.map (fun r => (cols.filter (fun c => U.f r c)).length)).sum := rfl
    _ = ∑ r ∈ rows.toFinset, (cols.filter (fun c => U.f r c)).length :=
        (List.sum_toFinset _ hr).symm
    _ = ∑ r ∈ rows.toFinset, ∑ c ∈ cols.toFinset, if U.f (r, c).1 (r, c).2 then 1 else 0 := by
        refine Finset.sum_congr rfl fun r _ => ?_
        rw [hinner r]

/-- Counting after erasing a duplicate-free in-range rectangle. -/
theorem countTrue_erase {rows cols : List ℕ} {U : BMat}
    (hr : rows.Nodup) (hc : cols.Nodup)
    (hrr : ∀ r ∈ rows, r < U.n) (hcc : ∀ c ∈ cols, c < U.m) :
    countTrue (erase_submatrix_values rows cols U) =
      countTrue U - submatrix_intersection_size rows cols U := by
  classical
  unfold countTrue erase_submatrix_values
  simp only
  set S := (Finset.range U.n ×ˢ Finset.range U.m) with hS
  have h1 : (S.filter (fun p => (if p.1 ∈ rows ∧ p.2 ∈ cols then false else U.f p.1 p.2) = true)) =
      (S.filter (fun p => U.f p.1 p.2)).filter (fun p => ¬(p.1 ∈ rows ∧ p.2 ∈ cols)) := by
    rw [Finset.filter_filter]
    refine Finset.filter_congr fun p _ => ?_
    by_cases hp : p.1 ∈ rows ∧ p.2 ∈ cols <;> simp [hp]
  rw [h1]
  have h2 : ((S.filter (fun p => U.f p.1 p.2)).filter (fun p => ¬(p.1 ∈ rows ∧ p.2 ∈ cols))).card +
      ((S.filter (fun p => U.f p.1 p.2)).filter (fun p => (p.1 ∈ rows ∧ p.2 ∈ cols))).card =
      (S.filter (fun p => U.f p.1 p.2)).card := by
    rw [add_comm]
    exact Finset.filter_card_add_filter_neg_card_eq_card _
  have h3 : ((S.filter (fun p => U.f p.1 p.2)).filter (fun p => (p.1 ∈ rows ∧ p.2 ∈ cols))) =
      ((rows.toFinset ×ˢ cols.toFinset).filter (fun p => U.f p.1 p.2)) := by
    ext p
    simp only [Finset.mem_filter, Finset.mem_product, Finset.mem_range, List.mem_toFinset, hS]
    constructor
    · rintro ⟨⟨_, hf⟩, hin⟩
      exact ⟨⟨hin.1, hin.2⟩, hf⟩
    · rintro ⟨⟨hin1, hin2⟩, hf⟩
      exact ⟨⟨⟨hrr _ hin1, hcc _ hin2⟩, hf⟩, hin1, hin2⟩
  rw [submatrix_intersection_size_eq_card hr hc, ← h3]
  omega

theorem foldlBest_init_le (M U : BMat) (D : List ℕ) :
    ∀ (l : List ℕ) (init : ℕ × Option (List ℕ)),
      init.1 ≤ (l.foldl (fun best j =>
        if candidateV M U D j > best.1 then (candidateV M U D j, some (candidateIntent M D j))
        else best) init).1 := by
  intro l
  induction l with
  | nil => intro init; exact le_refl _
  | cons j js ih =>
    intro init
    simp only [List.foldl_cons]
    by_cases h : candidateV M U D j > init.1
    · simp only [if_pos h]
      exact le_trans (le_of_lt h)
        (ih (candidateV M U D j, some (candidateIntent M D j)))
    · simp only [if_neg h]
      exact ih init

theorem foldlBest_mem_le (M U : BMat) (D : List ℕ) :
    ∀ (l : List ℕ) (init : ℕ × Option (List ℕ)) (j : ℕ), j ∈ l →
      candidateV M U D j ≤ (l.foldl (fun best j =>
        if candidateV M U D j > best.1 then (candidateV M U D j, some (candidateIntent M D j))
        else best) init).1 := by
  intro l
  induction l with
  | nil => intro _ j hj; cases hj
  | cons a as ih =>
    intro init j hj
    simp only [List.foldl_cons]
    rcases List.mem_cons.mp hj with rfl | hj
    · by_cases h : candidateV M U D j > init.1
      · simp only [if_pos h]
        exact foldlBest_init_le M U D as (candidateV M U D j, some (candidateIntent M D j))
      · simp only [if_neg h]
        exact le_trans (by omega) (foldlBest_init_le M U D as init)
    · by_cases h : candidateV M U D a > init.1
      · simp only [if_pos h]
        exact ih _ j hj
      · simp only [if_neg h]
        exact ih init j hj

theorem bestCandidate_ge (M U : BMat) (js D : List ℕ) :
    ∀ j ∈ js, candidateV M U D j ≤ (bestCandidate M U js D).1 :=
  fun j hj => foldlBest_mem_le M U D js (0, none) j hj

theorem foldlBest_form (M U : BMat) (D : List ℕ) :
    ∀ (l : List ℕ) (init : ℕ × Option (List ℕ)),
      (l.foldl (fun best j =>
        if candidateV M U D j > best.1 then (candidateV M U D j, some (candidateIntent M D j))
        else best) init) = init ∨
      ∃ j ∈ l, (l.foldl (fun best j =>
        if candidateV M U D j > best.1 then (candidateV M U D j, some (candidateIntent M D j))
        else best) init) = (candidateV M U D j, some (candidateIntent M D j)) := by
  intro l
  induction l with
  | nil => intro init; exact Or.inl rfl
  | cons a as ih =>
    intro init
    simp only [List.foldl_cons]
    by_cases h : candidateV M U D a > init.1
    · simp only [if_pos h]
      rcases ih (candidateV M U D a, some (candidateIntent M D a)) with heq | ⟨j, hj, heq⟩
      · exact Or.inr ⟨a, List.mem_cons_self a as, heq⟩
      · exact Or.inr ⟨j, List.mem_cons_of_mem a hj, heq⟩
    · simp only [if_neg h]
      rcases ih init with heq | ⟨j, hj, heq⟩
      · exact Or.inl heq
      · exact Or.inr ⟨j, List.mem_cons_of_mem a hj, heq⟩

theorem bestCandidate_form (M U : BMat) (js D : List ℕ) :
    bestCandidate M U js D = (0, none) ∨
    ∃ j ∈ js, bestCandidate M U js D =
      (candidateV M U D j, some (candidateIntent M D j)) :=
  foldlBest_form M U D js (0, none)

theorem innerLoop_V_mono (M U : BMat) (js : List ℕ) :
    ∀ (fuel : ℕ) (D : List ℕ) (V : ℕ), V ≤ (innerLoop M U js fuel D V).2 := by
  intro fuel
  induction fuel with
  | zero => intro D V; exact le_refl _
  | succ fuel ih =>
    intro D V
    simp only [innerLoop]
    by_cases h : (bestCandidate M U js D).1 > V
    · simp only [if_pos h]
      exact le_trans (le_of_lt h) (ih _ _)
    · simp only [if_neg h]
      exact le_refl _

/-- Invariant of the inner-loop state `(D, V)`: once `V` is positive, `D` is
the re-closed intent of some non-empty in-range column set `X` and `V` counts
the uncovered cells of the corresponding closed rectangle. -/
def InnerInv (M U : BMat) (p : List ℕ × ℕ) : Prop :=
  (∀ c ∈ p.1, c < M.m) ∧
  (p.2 = 0 ∨ ∃ X, X ≠ [] ∧ (∀ c ∈ X, c < M.m) ∧
    p.1 = _it (transposeB M) (_it M X) ∧
    p.2 = submatrix_intersection_size (_it M X) (_it (transposeB M) (_it M X)) U)

theorem innerLoop_inv (M U : BMat) (js : List ℕ) (hjs : ∀ j ∈ js, j < M.m) :
    ∀ (fuel : ℕ) (D : List ℕ) (V : ℕ), InnerInv M U (D, V) →
      InnerInv M U (innerLoop M U js fuel D V) := by
  intro fuel
  induction fuel with
  | zero => intro D V h; exact h
  | succ fuel ih =>
    intro D V h
    simp only [innerLoop]
    by_cases hb : (bestCandidate M U js D).1 > V
    · simp only [if_pos hb]
      have hbpos : 0 < (bestCandidate M U js D).1 := by omega
      rcases bestCandidate_form M U js D with heq | ⟨j, hj, heq⟩
      · rw [heq] at hbpos; exact absurd hbpos (by simp)
      · refine ih _ _ ?_
        rw [heq]
        simp only [Option.getD_some]
        constructor
        · intro c hc
          exact (mem_it_transpose.mp hc).1
        · refine Or.inr ⟨D ++ [j], by simp, ?_, rfl, rfl⟩
          intro c hc
          rcases List.mem_append.mp hc with hc | hc
          · exact h.1 c hc
          · rcases List.mem_singleton.mp hc with rfl
            exact hjs c hj
    · simp only [if_neg hb]
      exact h

/-- The working copy `U` always has the dimensions of the dataset and is
pointwise below it (erasure only removes True cells). -/
def UInv (M U : BMat) : Prop :=
  U.n = M.n ∧ U.m = M.m ∧ ∀ r c, U.f r c = true → M.f r c = true

theorem countTrue_pos_elim {U : BMat} (h : 0 < countTrue U) :
    ∃ r c, r < U.n ∧ c < U.m ∧ U.f r c = true := by
  rcases Finset.card_pos.mp h with ⟨p, hp⟩
  rcases Finset.mem_filter.mp hp with ⟨hmem, hf⟩
  rcases Finset.mem_product.mp hmem with ⟨h1, h2⟩
  exact ⟨p.1, p.2, Finset.mem_range.mp h1, Finset.mem_range.mp h2, hf⟩

theorem countTrue_eq_zero_elim {U : BMat} (h : countTrue U = 0) :
    ∀ r c, r < U.n → c < U.m → U.f r c = false := by
  intro r c hr hc
  cases hfc : U.f r c
  · rfl
  · exfalso
    have hmem : (r, c) ∈ (Finset.range U.n ×ˢ Finset.range U.m).filter
        (fun p => U.f p.1 p.2) := by
      refine Finset.mem_filter.mpr ⟨Finset.mem_product.mpr ⟨?_, ?_⟩, hfc⟩
      · exact Finset.mem_range.mpr hr
      · exact Finset.mem_range.mpr hc
    have hpos : 0 < countTrue U := by
      unfold countTrue
      exact Finset.card_pos.mpr ⟨(r, c), hmem⟩
    omega

theorem UInv_erase {M U : BMat} (hu : UInv M U) (rows cols : List ℕ) :
    UInv M (erase_submatrix_values rows cols U) := by
  refine ⟨hu.1, hu.2.1, ?_⟩
  intro r c h
  unfold erase_submatrix_values at h
  simp only at h
  by_cases hp : r ∈ rows ∧ c ∈ cols
  · rw [if_pos hp] at h; cases h
  · rw [if_neg hp] at h; exact hu.2.2 r c h

theorem countTrue_le_of_UInv {M U : BMat} (hu : UInv M U) :
    countTrue U ≤ countTrue M := by
  unfold countTrue
  apply Finset.card_le_card
  intro p hp
  rcases Finset.mem_filter.mp hp with ⟨hmem, hf⟩
  rcases Finset.mem_product.mp hmem with ⟨h1, h2⟩
  refine Finset.mem_filter.mpr ⟨Finset.mem_product.mpr ⟨?_, ?_⟩, hu.2.2 _ _ hf⟩
  · exact Finset.mem_range.mpr (hu.1 ▸ Finset.mem_range.mp h1)
  · exact Finset.mem_range.mpr (hu.2.1 ▸ Finset.mem_range.mp h2)

/-- One outer iteration of GreConD on a working copy with an uncovered True
cell: the mined concept's value `V` is at least `1`, and erasing its rectangle
removes exactly `V` True cells from `U`. -/
theorem mined_step (M U : BMat) (hu : UInv M U) (hpos : 0 < countTrue U) :
    1 ≤ (innerLoop M U (List.range M.m) (M.n * M.m + 1) [] 0).2 ∧
    countTrue (erase_submatrix_values
        (_it M (innerLoop M U (List.range M.m) (M.n * M.m + 1) [] 0).1)
        (innerLoop M U (List.range M.m) (M.n * M.m + 1) [] 0).1 U) =
      countTrue U - (innerLoop M U (List.range M.m) (M.n * M.m + 1) [] 0).2 := by
  obtain ⟨r, c, hr, hc, hrc⟩ := countTrue_pos_elim hpos
  have hrn : r < M.n := hu.1 ▸ hr
  have hcm : c < M.m := hu.2.1 ▸ hc
  have hM : M.f r c = true := hu.2.2 r c hrc
  have hrmem : r ∈ _it M ([] ++ [c]) := by
    refine mem_it.mpr ⟨hrn, ?_⟩
    intro c' hc'
    simp only [List.nil_append, List.mem_singleton] at hc'
    rw [hc']; exact hM
  have hcmem : c ∈ _it (transposeB M) (_it M ([] ++ [c])) := by
    refine mem_it_transpose.mpr ⟨hcm, ?_⟩
    intro r' hr'
    have := (mem_it.mp hr').2 c (by simp)
    exact this
  have hcand : 1 ≤ candidateV M U [] c :=
    submatrix_intersection_size_pos hrmem hcmem hrc
  have hcjs : c ∈ List.range M.m := List.mem_range.mpr hcm
  -- the inner loop adopts at least once, so the final V is at least 1
  have hV1 : 1 ≤ (innerLoop M U (List.range M.m) (M.n * M.m + 1) [] 0).2 := by
    have hb1 : 1 ≤ (bestCandidate M U (List.range M.m) []).1 :=
      le_trans hcand (bestCandidate_ge M U (List.range M.m) [] c hcjs)
    show 1 ≤ (innerLoop M U (List.range M.m) (M.n * M.m + 1) [] 0).2
    simp only [innerLoop]
    have hgt : (bestCandidate M U (List.range M.m) []).1 > 0 := by omega
    simp only [if_pos hgt]
    exact le_trans hb1 (innerLoop_V_mono M U (List.range M.m) _ _ _)
  have hinv : InnerInv M U (innerLoop M U (List.range M.m) (M.n * M.m + 1) [] 0) := by
    refine innerLoop_inv M U (List.range M.m) (fun j hj => List.mem_range.mp hj) _ _ _ ?_
    exact ⟨fun x hx => absurd hx (List.not_mem_nil x), Or.inl rfl⟩
  rcases hinv.2 with h0 | ⟨X, hXne, hXm, hD, hV⟩
  · omega
  refine ⟨hV1, ?_⟩
  have hC : _it M (innerLoop M U (List.range M.m) (M.n * M.m + 1) [] 0).1 = _it M X := by
    rw [hD]; exact it_it_it M X hXm
  have hsub : submatrix_intersection_size
      (_it M (innerLoop M U (List.range M.m) (M.n * M.m + 1) [] 0).1)
      (innerLoop M U (List.range M.m) (M.n * M.m + 1) [] 0).1 U =
      (innerLoop M U (List.range M.m) (M.n * M.m + 1) [] 0).2 := by
    rw [hC, hD, ← hV]
  rw [countTrue_erase (nodup_it _ _) (by rw [hD]; exact nodup_it _ _)
      (fun x hx => hu.1 ▸ it_subset_range hx)
      (fun x hx => by rw [hD] at hx; exact hu.2.1 ▸ (mem_it_transpose.mp hx).1), hsub]

/-- Invariant of the outer-loop state: `U` is a sub-copy of `M`, and `cur` is
either the coverage of `U` or the initial value `0` with `U` untouched. -/
def StateInv (M U : BMat) (cur : ℚ) : Prop :=
  UInv M U ∧
    (cur = 1 - (countTrue U : ℚ) / (countTrue M : ℚ) ∨ (cur = 0 ∧ U = M))

theorem countTrue_pos_of_gt {M U : BMat} {cur c : ℚ} (hinv : StateInv M U cur)
    (htot : 0 < countTrue M) (hgt : c > cur) (hc1 : c ≤ 1) :
    0 < countTrue U := by
  rcases hinv.2 with hform | ⟨_, hUM⟩
  · by_contra hz
    have h0 : countTrue U = 0 := by omega
    rw [hform, h0] at hgt
    norm_num at hgt
    linarith
  · rw [hUM]; exact htot

theorem cur_le_next {M U U2 : BMat} {cur : ℚ} (hinv : StateInv M U cur)
    (htot : 0 < countTrue M) (hle : countTrue U2 ≤ countTrue U) :
    cur ≤ 1 - (countTrue U2 : ℚ) / (countTrue M : ℚ) := by
  have htotQ : (0:ℚ) < (countTrue M : ℚ) := by exact_mod_cast htot
  rcases hinv.2 with hform | ⟨h0, hUM⟩
  · rw [hform]
    have hdiv : (countTrue U2 : ℚ) / (countTrue M : ℚ) ≤
        (countTrue U : ℚ) / (countTrue M : ℚ) := by
      gcongr
    linarith
  · rw [h0]
    have h2 : countTrue U2 ≤ countTrue M := le_trans hle (by rw [hUM])
    have hdiv : (countTrue U2 : ℚ) / (countTrue M : ℚ) ≤ 1 := by
      rw [div_le_one htotQ]
      exact_mod_cast h2
    linarith

/-- Termination and monotonicity of the outer loop: with fuel above the count
of uncovered cells the loop returns normally, never shrinking the concept list
or the achieved coverage. -/
theorem grecondLoop_ok (M : BMat) (c : ℚ) (hc1 : c ≤ 1) (htot : 0 < countTrue M) :
    ∀ (fuel : ℕ) (U : BMat) (F : List Concept) (cur : ℚ),
      StateInv M U cur → countTrue U < fuel →
      ∃ F2 cur2, grecondLoop M (countTrue M) c fuel U F cur = .ok (F2, cur2) ∧
        F.length ≤ F2.length ∧ cur ≤ cur2 := by
  intro fuel
  induction fuel with
  | zero => intro U F cur _ hfuel; omega
  | succ fuel ih =>
    intro U F cur hinv hfuel
    by_cases hgt : c > cur
    · have hUpos : 0 < countTrue U := countTrue_pos_of_gt hinv htot hgt hc1
      have hstep := mined_step M U hinv.1 hUpos
      have htotne : ¬ (countTrue M = 0) := by omega
      simp only [grecondLoop, if_pos hgt, if_neg htotne]
      have hcnt : countTrue (erase_submatrix_values
          (_it M (innerLoop M U (List.range M.m) (M.n * M.m + 1) [] 0).1)
          (innerLoop M U (List.range M.m) (M.n * M.m + 1) [] 0).1 U) =
          countTrue U - (innerLoop M U (List.range M.m) (M.n * M.m + 1) [] 0).2 :=
        hstep.2
      have hinv2 : StateInv M (erase_submatrix_values
          (_it M (innerLoop M U (List.range M.m) (M.n * M.m + 1) [] 0).1)
          (innerLoop M U (List.range M.m) (M.n * M.m + 1) [] 0).1 U)
          (1 - (countTrue (erase_submatrix_values
            (_it M (innerLoop M U (List.range M.m) (M.n * M.m + 1) [] 0).1)
            (innerLoop M U (List.range M.m) (M.n * M.m + 1) [] 0).1 U) : ℚ) /
            (countTrue M : ℚ)) :=
        ⟨UInv_erase hinv.1 _ _, Or.inl rfl⟩
      obtain ⟨F2, cur3, heq, hlen, hle⟩ := ih _ (F ++ [⟨_it M
          (innerLoop M U (List.range M.m) (M.n * M.m + 1) [] 0).1,
          (innerLoop M U (List.range M.m) (M.n * M.m + 1) [] 0).1⟩]) _ hinv2 (by omega)
      refine ⟨F2, cur3, heq, ?_, ?_⟩
      · calc F.length ≤ F.length + 1 := by omega
          _ = (F ++ [(⟨_it M (innerLoop M U (List.range M.m) (M.n * M.m + 1) [] 0).1,
              (innerLoop M U (List.range M.m) (M.n * M.m + 1) [] 0).1⟩ : Concept)]).length := by
            simp
          _ ≤ F2.length := hlen
      · exact le_trans (cur_le_next hinv htot (by omega)) hle
    · simp only [grecondLoop, if_neg hgt]
      exact ⟨F, cur, rfl, le_refl _, le_refl _⟩

/-- Running the outer loop from one shared state at two coverage targets
`c1 ≤ c2`: the lower-target run stops no later, so it emits no more concepts
and achieves no more coverage. -/
theorem grecondLoop_le (M : BMat) (c1 c2 : ℚ) (h12 : c1 ≤ c2) (hc2 : c2 ≤ 1)
    (htot : 0 < countTrue M) :
    ∀ (fuel : ℕ) (U : BMat) (F : List Concept) (cur : ℚ),
      StateInv M U cur → countTrue U < fuel →
      ∃ F1 cur1 F2 cur2,
        grecondLoop M (countTrue M) c1 fuel U F cur = .ok (F1, cur1) ∧
        grecondLoop M (countTrue M) c2 fuel U F cur = .ok (F2, cur2) ∧
        F1.length ≤ F2.length ∧ cur1 ≤ cur2 := by
  intro fuel
  induction fuel with
  | zero => intro U F cur _ hfuel; omega
  | succ fuel ih =>
    intro U F cur hinv hfuel
    by_cases hgt2 : c2 > cur
    · have hUpos : 0 < countTrue U := countTrue_pos_of_gt hinv htot hgt2 hc2
      have hstep := mined_step M U hinv.1 hUpos
      have htotne : ¬ (countTrue M = 0) := by omega
      have hcnt : countTrue (erase_submatrix_values
          (_it M (innerLoop M U (List.range M.m) (M.n * M.m + 1) [] 0).1)
          (innerLoop M U (List.range M.m) (M.n * M.m + 1) [] 0).1 U) =
          countTrue U - (innerLoop M U (List.range M.m) (M.n * M.m + 1) [] 0).2 :=
        hstep.2
      have hinv2 : StateInv M (erase_submatrix_values
          (_it M (innerLoop M U (List.range M.m) (M.n * M.m + 1) [] 0).1)
          (innerLoop M U (List.range M.m) (M.n * M.m + 1) [] 0).1 U)
          (1 - (countTrue (erase_submatrix_values
            (_it M (innerLoop M U (List.range M.m) (M.n * M.m + 1) [] 0).1)
            (innerLoop M U (List.range M.m) (M.n * M.m + 1) [] 0).1 U) : ℚ) /
            (countTrue M : ℚ)) :=
        ⟨UInv_erase hinv.1 _ _, Or.inl rfl⟩
      by_cases hgt1 : c1 > cur
      · simp only [grecondLoop, if_pos hgt1, if_pos hgt2, if_neg htotne]
        exact ih _ (F ++ [⟨_it M
            (innerLoop M U (List.range M.m) (M.n * M.m + 1) [] 0).1,
            (innerLoop M U (List.range M.m) (M.n * M.m + 1) [] 0).1⟩]) _ hinv2 (by omega)
      · obtain ⟨F2, cur3, heq, hlen, hle⟩ := grecondLoop_ok M c2 hc2 htot fuel _
          (F ++ [⟨_it M (innerLoop M U (List.range M.m) (M.n * M.m + 1) [] 0).1,
            (innerLoop M U (List.range M.m) (M.n * M.m + 1) [] 0).1⟩]) _ hinv2 (by omega)
        refine ⟨F, cur, F2, cur3, ?_, ?_, ?_, ?_⟩
        · simp only [grecondLoop, if_neg hgt1]
        · simp only [grecondLoop, if_pos hgt2, if_neg htotne]
          exact heq
        · calc F.length ≤ F.length + 1 := by omega
            _ = (F ++ [(⟨_it M (innerLoop M U (List.range M.m) (M.n * M.m + 1) [] 0).1,
                (innerLoop M U (List.range M.m) (M.n * M.m + 1) [] 0).1⟩ : Concept)]).length := by
              simp
            _ ≤ F2.length := hlen
        · exact le_trans (cur_le_next hinv htot (by omega)) hle
    · have hgt1 : ¬ c1 > cur := by
        intro h; exact hgt2 (lt_of_lt_of_le h h12)
      simp only [grecondLoop, if_neg hgt1, if_neg hgt2]
      exact ⟨F, cur, F, cur, rfl, rfl, le_refl _, le_refl _⟩

/-- `Covered F r c`: the cell `(r, c)` lies in the rectangle of some concept
of `F`.  This is exactly what the boolean factor product `Af @ Bf` tests. -/
def Covered (F : List Concept) (r c : ℕ) : Prop :=
  ∃ b ∈ F, r ∈ b.extent ∧ c ∈ b.intent

/-- Every mined concept is an all-True rectangle of the dataset. -/
def RectAll (M : BMat) (F : List Concept) : Prop :=
  ∀ b ∈ F, ∀ r ∈ b.extent, ∀ c ∈ b.intent, M.f r c = true

/-- Every True cell of the dataset is still uncovered in `U` or covered by a
concept already emitted. -/
def CoveredInv (M U : BMat) (F : List Concept) : Prop :=
  ∀ r c, r < M.n → c < M.m → M.f r c = true → U.f r c = true ∨ Covered F r c

/-- At coverage target `1` the outer loop runs until `U` is empty: the final
concept family is made of all-True rectangles and covers every True cell, and
the reported coverage is exactly `1`. -/
theorem grecondLoop_full (M : BMat) (htot : 0 < countTrue M) :
    ∀ (fuel : ℕ) (U : BMat) (F : List Concept) (cur : ℚ),
      StateInv M U cur → countTrue U < fuel → RectAll M F → CoveredInv M U F →
      ∃ F2, grecondLoop M (countTrue M) 1 fuel U F cur = .ok (F2, 1) ∧
        RectAll M F2 ∧ ∀ r c, r < M.n → c < M.m → M.f r c = true → Covered F2 r c := by
  intro fuel
  induction fuel with
  | zero => intro U F cur _ hfuel; omega
  | succ fuel ih =>
    intro U F cur hinv hfuel hrect hcov
    by_cases hgt : (1:ℚ) > cur
    · have hUpos : 0 < countTrue U := countTrue_pos_of_gt hinv htot hgt (le_refl 1)
      have hstep := mined_step M U hinv.1 hUpos
      have htotne : ¬ (countTrue M = 0) := by omega
      simp only [grecondLoop, if_pos hgt, if_neg htotne]
      have hcnt : countTrue (erase_submatrix_values
          (_it M (innerLoop M U (List.range M.m) (M.n * M.m + 1) [] 0).1)
          (innerLoop M U (List.range M.m) (M.n * M.m + 1) [] 0).1 U) =
          countTrue U - (innerLoop M U (List.range M.m) (M.n * M.m + 1) [] 0).2 :=
        hstep.2
      have hinv2 : StateInv M (erase_submatrix_values
          (_it M (innerLoop M U (List.range M.m) (M.n * M.m + 1) [] 0).1)
          (innerLoop M U (List.range M.m) (M.n * M.m + 1) [] 0).1 U)
          (1 - (countTrue (erase_submatrix_values
            (_it M (innerLoop M U (List.range M.m) (M.n * M.m + 1) [] 0).1)
            (innerLoop M U (List.range M.m) (M.n * M.m + 1) [] 0).1 U) : ℚ) /
            (countTrue M : ℚ)) :=
        ⟨UInv_erase hinv.1 _ _, Or.inl rfl⟩
      have hrect2 : RectAll M (F ++ [⟨_it M
          (innerLoop M U (List.range M.m) (M.n * M.m + 1) [] 0).1,
          (innerLoop M U (List.range M.m) (M.n * M.m + 1) [] 0).1⟩]) := by
        intro b hb r hr c hc
        rcases List.mem_append.mp hb with hb | hb
        · exact hrect b hb r hr c hc
        · rcases List.mem_singleton.mp hb with rfl
          exact (mem_it.mp hr).2 c hc
      have hcov2 : CoveredInv M (erase_submatrix_values
          (_it M (innerLoop M U (List.range M.m) (M.n * M.m + 1) [] 0).1)
          (innerLoop M U (List.range M.m) (M.n * M.m + 1) [] 0).1 U)
          (F ++ [⟨_it M (innerLoop M U (List.range M.m) (M.n * M.m + 1) [] 0).1,
            (innerLoop M U (List.range M.m) (M.n * M.m + 1) [] 0).1⟩]) := by
        intro r c hr hc hM
        rcases hcov r c hr hc hM with hU | ⟨b, hb, hbe, hbi⟩
        · by_cases hin : r ∈ _it M (innerLoop M U (List.range M.m) (M.n * M.m + 1) [] 0).1 ∧
              c ∈ (innerLoop M U (List.range M.m) (M.n * M.m + 1) [] 0).1
          · exact Or.inr ⟨_, List.mem_append.mpr (Or.inr (List.mem_singleton.mpr rfl)),
              hin.1, hin.2⟩
          · left
            show (if _ ∧ _ then false else U.f r c) = true
            rw [if_neg hin]
            exact hU
        · exact Or.inr ⟨b, List.mem_append.mpr (Or.inl hb), hbe, hbi⟩
      exact ih _ _ _ hinv2 (by omega) hrect2 hcov2
    · have hcur1 : (1:ℚ) ≤ cur := le_of_not_lt hgt
      rcases hinv.2 with hform | ⟨h0, _⟩
      · have htotQ : (0:ℚ) < (countTrue M : ℚ) := by exact_mod_cast htot
        have hq0 : (countTrue U : ℚ) / (countTrue M : ℚ) ≤ 0 := by
          rw [hform] at hcur1; linarith
        have hqn : (0:ℚ) ≤ (countTrue U : ℚ) / (countTrue M : ℚ) := by positivity
        have hU0 : countTrue U = 0 := by
          have hdq : (countTrue U : ℚ) / (countTrue M : ℚ) = 0 := le_antisymm hq0 hqn
          rcases div_eq_zero_iff.mp hdq with h | h
          · exact_mod_cast h
          · rw [h] at htotQ; exact absurd htotQ (lt_irrefl 0)
        have hcur : cur = 1 := by rw [hform, hU0]; norm_num
        refine ⟨F, ?_, hrect, ?_⟩
        · have hstop : grecondLoop M (countTrue M) 1 (fuel + 1) U F cur = .ok (F, cur) := by
            simp only [grecondLoop, if_neg hgt]
          rw [hstop, hcur]
        · intro r c hr hc hM
          rcases hcov r c hr hc hM with hU | hcovd
          · exfalso
            have := countTrue_eq_zero_elim hU0 r c (hinv.1.1.symm ▸ hr) (hinv.1.2.1.symm ▸ hc)
            rw [this] at hU
            cases hU
          · exact hcovd
      · rw [h0] at hcur1; norm_num at hcur1

end FormalConceptAnalysis

namespace RecommendersCommon

/-- A ratings vector: one `Option ℚ` per coordinate, `none` modelling NaN. -/
abbrev RVec := List (Option ℚ)

/-- A ratings matrix: a list of rows. -/
abbrev RMat := List RVec

/-- The `eps = 1e-08` floor of the similarity denominators. -/
def eps : ℚ := 1 / 100000000

/-- Overlap of two vectors:
`np.intersect1d(np.nonzero(~np.isnan(u))[0], np.nonzero(~np.isnan(v))[0])`,
i.e. the (sorted, unique) indices where both vectors are non-NaN. -/
def commonIndices (u v : RVec) : List ℕ :=
  (List.range u.length).filter
    (fun k => (u.getD k none).isSome && (v.getD k none).isSome)

/-- The values of a vector at a list of indices (used only on indices where
the vector is non-NaN, so the default is never read). -/
def restrictVals (w : RVec) (idx : List ℕ) : List ℚ :=
  idx.map (fun k => (w.getD k none).getD 0)

/-- `np.dot` over exact rationals. -/
def dotQ (a b : List ℚ) : ℚ := ((a.zip b).map (fun p => p.1 * p.2)).sum

/-- `cosine_similarity(dataset, u_id, v_id, means, eps)` from
`recommenders/common.py`: restrict both rows to the non-NaN overlap; return
NaN (`none`) when the overlap is empty, else
`dot(u', v') / max(sqrt(dot(u',u') * dot(v',v')), eps)`.  The `means`
argument is accepted and unused, as in the source. -/
noncomputable def cosine_similarity (dataset : RMat) (u_id v_id : ℕ)
    (means : RVec) : Option ℝ :=
  let u := dataset.getD u_id []
  let v := dataset.getD v_id []
  let idx := commonIndices u v
  if idx = [] then none
  else
    let cu := restrictVals u idx
    let cv := restrictVals v idx
    some ((dotQ cu cv : ℝ) /
      max (Real.sqrt ((dotQ cu cu : ℝ) * (dotQ cv cv : ℝ))) (eps : ℝ))

/-- `pearson_similarity(dataset, u_id, v_id, means, eps)`: like cosine but the
whole-vector means `means[u_id]`, `means[v_id]` are subtracted from the
overlap values first.  When a subtracted mean is NaN every centred coordinate
is NaN, the dot products are NaN, `max` keeps its NaN first argument (Python
`max` returns the first argument unless the second compares greater) and
`NaN / NaN` is NaN — modelled by returning `none`. -/
noncomputable def pearson_similarity (dataset : RMat) (u_id v_id : ℕ)
    (means : RVec) : Option ℝ :=
  let u := dataset.getD u_id []
  let v := dataset.getD v_id []
  let idx := commonIndices u v
  if idx = [] then none
  else
    match means.getD u_id none, means.getD v_id none with
    | some mean_u, some mean_v =>
      let cu := (restrictVals u idx).map (fun q => q - mean_u)
      let cv := (restrictVals v idx).map (fun q => q - mean_v)
      some ((dotQ cu cv : ℝ) /
        max (Real.sqrt ((dotQ cu cu : ℝ) * (dotQ cv cv : ℝ))) (eps : ℝ))
    | _, _ => none

/-- `adjusted_cosine_similarity(dataset, i_id, j_id, means, eps)`: the mean
subtracted from each overlap coordinate is the per-coordinate
`means[common_indices]` value.  A NaN among the used means poisons the dot
products exactly as in `pearson_similarity`. -/
noncomputable def adjusted_cosine_similarity (dataset : RMat) (i_id j_id : ℕ)
    (means : RVec) : Option ℝ :=
  let i := dataset.getD i_id []
  let j := dataset.getD j_id []
  let idx := commonIndices i j
  if idx = [] then none
  else if idx.any (fun k => (means.getD k none).isNone) then none
  else
    let ms := idx.map (fun k => (means.getD k none).getD 0)
    let ci := ((restrictVals i idx).zip ms).map (fun p => p.1 - p.2)
    let cj := ((restrictVals j idx).zip ms).map (fun p => p.1 - p.2)
    some ((dotQ ci cj : ℝ) /
      max (Real.sqrt ((dotQ ci ci : ℝ) * (dotQ cj cj : ℝ))) (eps : ℝ))

/-- A similarity strategy as injected into `get_similarity` /
`get_similarity_matrix` / the estimators (the source passes these around as
callables): it receives the dataset, two row indices and the means vector and
returns a float (`none` = NaN).  The plumbing below is generic in the
strategy, exactly as the source is; the built-in float-valued strategies are
modelled separately above over `ℝ`. -/
def Strategy := RMat → ℕ → ℕ → RVec → Option ℚ

/-- A similarity matrix / cache: a float cell per ordered index pair, `none`
modelling the NaN entries that mean "not yet computed". -/
structure SimCache where
  get : ℕ → ℕ → Option ℚ

/-- A single cell assignment `matrix[i, j] = v`. -/
def SimCache.write (mtx : SimCache) (i j : ℕ) (v : Option ℚ) : SimCache :=
  ⟨fun a b => if a = i ∧ b = j then v else mtx.get a b⟩

/-- Instrumented result of `get_similarity`: the returned float, the cache
after the call, and whether the strategy callable was invoked. -/
structure GetSimOut where
  value : Option ℚ
  cache : Option SimCache
  invoked : Bool

/-- `get_similarity(i, j, dataset, means, similarity_matrix, similarity_strategy)`
from `recommenders/common.py`.  The cache is consulted first: a non-NaN
`[i, j]` entry is returned unchanged.  On a miss, `i == j` yields `1.0`
without invoking the strategy, otherwise the strategy computes the value; in
both cases the result is written to the `(i, j)` and `(j, i)` cells whenever a
cache was provided. -/
def get_similarity (i j : ℕ) (dataset : RMat) (means : RVec)
    (similarity_matrix : Option SimCache) (similarity_strategy : Strategy) :
    GetSimOut :=
  match similarity_matrix with
  | some mtx =>
    match mtx.get i j with
    | some v => ⟨some v, some mtx, false⟩
    | none =>
      let similarity : Option ℚ :=
        if i = j then some 1 else similarity_strategy dataset i j means
      ⟨similarity, some ((mtx.write i j similarity).write j i similarity),
        decide (i ≠ j)⟩
  | none =>
    let similarity : Option ℚ :=
      if i = j then some 1 else similarity_strategy dataset i j means
    ⟨similarity, none, decide (i ≠ j)⟩

/-- `get_similarity_matrix(dataset, means, similarity_strategy)` from
`recommenders/common.py`: start from an all-NaN square matrix and call
`get_similarity` on every pair with `j >= i`, accumulating the cache writes. -/
def get_similarity_matrix (dataset : RMat) (means : RVec)
    (similarity_strategy : Strategy) : SimCache :=
  (List.range dataset.length).foldl
    (fun mtx i =>
      (List.range dataset.length).foldl
        (fun mtx2 j =>
          if i ≤ j then
            (get_similarity i j dataset means (some mtx2) similarity_strategy).cache.getD mtx2
          else mtx2)
        mtx)
    ⟨fun _ _ => none⟩

end RecommendersCommon

/-- A Python float value flowing through the prediction formulas: an exact
finite rational, or a non-finite float (`inf` or `NaN` — which numpy float64
arithmetic produces instead of raising on zero-division). -/
inductive PyNum where
  | fin : ℚ → PyNum
  | nonfin
  deriving DecidableEq, Repr

/-- Reading a possibly-NaN stored float into the arithmetic domain. -/
def toPyNum : Option ℚ → PyNum
  | some q => .fin q
  | none => .nonfin

/-- Float addition: any non-finite operand gives a non-finite result
(`inf + x`, `NaN + x`, `inf + (-inf)` are all non-finite). -/
def PyNum.add : PyNum → PyNum → PyNum
  | .fin a, .fin b => .fin (a + b)
  | _, _ => .nonfin

/-- Float subtraction, same absorption. -/
def PyNum.sub : PyNum → PyNum → PyNum
  | .fin a, .fin b => .fin (a - b)
  | _, _ => .nonfin

/-- Float multiplication: `0 * inf` and `0 * NaN` are NaN, so a non-finite
operand always gives a non-finite result. -/
def PyNum.mul : PyNum → PyNum → PyNum
  | .fin a, .fin b => .fin (a * b)
  | _, _ => .nonfin

/-- Division by a finite nonzero float (the only division this development
performs on a `PyNum` numerator): `inf / s` and `NaN / s` stay non-finite. -/
def PyNum.divFin : PyNum → ℚ → PyNum
  | .fin a, s => .fin (a / s)
  | .nonfin, _ => .nonfin

/-- One neighbor row as zipped by the estimators: rating, similarity, mean. -/
structure Neighbor where
  rating : Option ℚ
  sim : Option ℚ
  mean : Option ℚ
  deriving DecidableEq, Repr

/-- Positional zip of the three parallel arrays. -/
def zip3 : List (Option ℚ) → List (Option ℚ) → List (Option ℚ) → List Neighbor
  | r :: rs, s :: ss, m :: ms => ⟨r, s, m⟩ :: zip3 rs ss ms
  | _, _, _ => []

/-- Ascending comparison on similarities with NaN (`none`) sorting last, as
`np.argsort` places NaN after every number. -/
def simLt (a b : Neighbor) : Bool :=
  match a.sim, b.sim with
  | some p, some q => decide (p < q)
  | some _, none => true
  | none, _ => false

/-- Insertion into an ascending-by-similarity list. -/
def insertBySim (t : Neighbor) : List Neighbor → List Neighbor
  | [] => [t]
  | u :: us => if simLt t u then t :: u :: us else u :: insertBySim t us

/-- `np.argsort` (ascending) applied simultaneously to the three parallel
arrays, modelled as a sort of the zipped rows.  numpy's default argsort is an
unstable quicksort, so the order among equal similarities is unspecified; the
model fixes one deterministic order, and no claim below depends on tie order. -/
def sortBySim (l : List Neighbor) : List Neighbor := l.foldr insertBySim []

/-- `array.any()` on an int64 index array: numpy truthiness, i.e. True iff
some element is nonzero.  In particular `np.array([0]).any()` is False even
though the array is non-empty. -/
def anyNonzero (l : List ℕ) : Bool := l.any (fun x => decide (x ≠ 0))

namespace BBCF

open FormalConceptAnalysis RecommendersCommon

/-- `knn_type`, asserted to be "user" or "item" in `BBCF.__init__`. -/
inductive KnnType where
  | user
  | item
  deriving DecidableEq, Repr

/-- The state of a fitted `BBCF` recommender as `estimate` reads it: the
trainset size (`knows_user u` iff `u < nUsers`, same for items), the dense
ratings matrix, the per-user merged neighborhood bicluster, the user and item
means, the configuration, and the lazy per-user similarity-matrix dictionary
(`self.similarity_matrix`, empty after `fit`). -/
structure Model where
  nUsers : ℕ
  nItems : ℕ
  dataset : ℕ → ℕ → Option ℚ
  neighborhood : ℕ → Concept
  user_means : ℕ → Option ℚ
  item_means : ℕ → Option ℚ
  knn_type : KnnType
  knn_k : ℕ
  force_knn_similarity_strategy : Option Strategy
  similarity_matrix : ℕ → Option SimCache

/-- Outcome of `BBCF.estimate`: the returned `(prediction, {})` or a raised
exception. -/
inductive EstimateResult where
  | ok : PyNum → EstimateResult
  | err : PyErr → EstimateResult
  deriving DecidableEq, Repr

/-- `BBCF.estimate(user, item)` from `recommenders/BBCF.py`.  The default
similarity strategies (`pearson_similarity` for user-based and
`adjusted_cosine_similarity` for item-based) are float-valued and appear here
as the parameters `pearsonDefault` / `adjustedDefault`; a configured
`force_knn_similarity_strategy` overrides them, as in the source.

The final division `sum_ratings / sum_similarities` operates on numpy float64
scalars whenever at least one neighbor was summed, and numpy float64 division
by zero returns `inf`/`NaN` with a warning instead of raising
`ZeroDivisionError`; the `except ZeroDivisionError` branch can only fire when
the `zip` loop ran zero times and both sums are still Python floats. -/
def estimate (pearsonDefault adjustedDefault : Strategy) (mdl : Model)
    (user item : ℕ) : EstimateResult :=
  if ¬ (user < mdl.nUsers ∧ item < mdl.nItems) then .err .unknownEntity
  else
    let neighborhood := mdl.neighborhood user
    if ¬ anyNonzero neighborhood.extent = true ∨ ¬ anyNonzero neighborhood.intent = true then
      .err .notEnoughNeighbors
    else if user ∉ neighborhood.extent ∨ item ∉ neighborhood.intent then
      .err .notInNeighborhood
    else
      -- item-based prediction is run as a user-based problem on the transpose
      let mainIndex := match mdl.knn_type with | .user => user | .item => item
      let secondaryIndex := match mdl.knn_type with | .user => item | .item => user
      let mainSlice := match mdl.knn_type with
        | .user => neighborhood.extent | .item => neighborhood.intent
      let secondarySlice := match mdl.knn_type with
        | .user => neighborhood.intent | .item => neighborhood.extent
      let dataset : ℕ → ℕ → Option ℚ := match mdl.knn_type with
        | .user => mdl.dataset
        | .item => fun r c => mdl.dataset c r
      let means : ℕ → Option ℚ := match mdl.knn_type with
        | .user => mdl.user_means | .item => mdl.item_means
      let similarity_strategy : Strategy :=
        match mdl.force_knn_similarity_strategy with
        | some s => s
        | none => match mdl.knn_type with
          | .user => pearsonDefault | .item => adjustedDefault
      let similarity_strategy_means : RVec := match mdl.knn_type with
        | .user => mainSlice.map mdl.user_means
        | .item => secondarySlice.map mdl.user_means
      let mainIndexInSubmatrix := mainSlice.findIdx (fun r => r = mainIndex)
      let secondaryIndexInSubmatrix := secondarySlice.findIdx (fun c => c = secondaryIndex)
      let submatrix : RMat := mainSlice.map (fun r => secondarySlice.map (fun c => dataset r c))
      -- lazy computation of the similarity matrix for this user
      let simMatrix : SimCache := match mdl.similarity_matrix user with
        | some sm => sm
        | none => get_similarity_matrix submatrix similarity_strategy_means similarity_strategy
      let neighborhoodSimilarity : List (Option ℚ) :=
        (List.range mainSlice.length).map (fun t => simMatrix.get mainIndexInSubmatrix t)
      let neighborhoodRatings : List (Option ℚ) :=
        submatrix.map (fun row => row.getD secondaryIndexInSubmatrix none)
      let neighborhoodMeans : List (Option ℚ) := mainSlice.map means
      let triples := zip3 neighborhoodRatings neighborhoodSimilarity neighborhoodMeans
      -- validity mask: non-NaN rating, non-NaN similarity, nonzero similarity
      let valid := triples.filter
        (fun t => t.rating.isSome && (t.sim.isSome && decide (t.sim ≠ some 0)))
      if valid = [] then .err .noValidNeighbors
      else
        let sortedNb := sortBySim valid
        let topK := sortedNb.drop (sortedNb.length - min mdl.knn_k sortedNb.length)
        let sum_similarities : ℚ := (topK.map (fun t => t.sim.getD 0)).sum
        let sum_ratings : PyNum := topK.foldl
          (fun acc t => acc.add ((PyNum.fin (t.sim.getD 0)).mul
            ((toPyNum t.rating).sub (toPyNum t.mean)))) (.fin 0)
        if topK = [] then
          -- zero loop iterations: both sums are Python floats and 0.0 / 0.0
          -- raises ZeroDivisionError, caught and re-raised as
          -- PredictionImpossible("Sum of similarities is zero.").
          -- (Unreachable here because `valid` is non-empty and knn_k >= 1.)
          .err .sumOfSimilaritiesZero
        else if sum_similarities = 0 then
          -- numpy float64 zero-division: a non-finite prediction is returned,
          -- no exception reaches the except branch.
          .ok .nonfin
        else .ok ((toPyNum (means mainIndex)).add (sum_ratings.divFin sum_similarities))

end BBCF

namespace KnnBased

open FormalConceptAnalysis RecommendersCommon

/-- `calculate_weighted_rating` from `recommenders/knn_based_recommenders.py`:
after an assertion battery (similarities strictly in `(0, 1]` — a NaN
similarity fails the comparison chain exactly as in Python —, equal positive
lengths), computes `target_mean + sum(sim * (rating - mean)) / sum(sim)`.
The division cannot hit zero here because the asserted similarities are
positive and at least one is summed; the defensive `nonfin` arm mirrors the
numpy float64 zero-division semantics and is unreachable. -/
def calculate_weighted_rating (target_mean : Option ℚ)
    (neighbors_ratings neighbors_similarities neighbors_means : List (Option ℚ)) :
    Except PyErr PyNum :=
  if ¬ neighbors_similarities.all (fun s =>
      match s with
      | some q => decide (0 < q ∧ q ≤ 1)
      | none => false) then .error .assertionError
  else if ¬ (neighbors_ratings.length = neighbors_similarities.length ∧
      neighbors_similarities.length = neighbors_means.length) then .error .assertionError
  else if neighbors_ratings.length = 0 then .error .assertionError
  else
    let rows := zip3 neighbors_ratings neighbors_similarities neighbors_means
    let sum_similarities : ℚ := (rows.map (fun t => t.sim.getD 0)).sum
    let sum_ratings : PyNum := rows.foldl
      (fun acc t => acc.add ((PyNum.fin (t.sim.getD 0)).mul
        ((toPyNum t.rating).sub (toPyNum t.mean)))) (.fin 0)
    if sum_similarities = 0 then .ok .nonfin
    else .ok ((toPyNum target_mean).add (sum_ratings.divFin sum_similarities))

/-- `get_k_top_neighbors` from `recommenders/knn_based_recommenders.py`.  Of
its `validate_inputs` assertions, the ones expressible in this embedding are
the non-empty neighborhood and the positive `knn_k`.  Note the validity mask
is `(~isnan(ratings)) & (similarity != 0)`: a NaN similarity passes it, since
`NaN != 0` is True in numpy. -/
def get_k_top_neighbors (x y : ℕ) (dataset : ℕ → ℕ → Option ℚ)
    (users_neighborhood : List ℕ) (similarity_matrix : ℕ → ℕ → Option ℚ)
    (means : ℕ → Option ℚ) (knn_k : ℕ) :
    Except PyErr (List (Option ℚ) × List (Option ℚ) × List (Option ℚ)) :=
  if users_neighborhood.length = 0 ∨ knn_k = 0 then .error .assertionError
  else
    let neighborhood_similarity := users_neighborhood.map (fun u => similarity_matrix x u)
    let neighborhood_ratings := users_neighborhood.map (fun u => dataset u y)
    let neighborhood_means := users_neighborhood.map means
    let triples := zip3 neighborhood_ratings neighborhood_similarity neighborhood_means
    let valid := triples.filter (fun t => t.rating.isSome && decide (t.sim ≠ some 0))
    if valid = [] then .ok ([], [], [])
    else
      let sortedNb := sortBySim valid
      let topAsc := sortedNb.drop (sortedNb.length - min knn_k sortedNb.length)
      let topDesc := topAsc.reverse
      .ok (topDesc.map (fun t => t.rating), topDesc.map (fun t => t.sim),
        topDesc.map (fun t => t.mean))

/-- The state of a fitted `BiAKNN` recommender as `estimate` reads it:
`neighborhood` maps each user to the merged extent (user-based) or intent
(item-based), `means` are the user or item means matching `knn_type`, and
`similarity_matrix` is the shared lazily-filled matrix allocated in `fit`. -/
structure BiModel where
  nUsers : ℕ
  nItems : ℕ
  dataset : ℕ → ℕ → Option ℚ
  neighborhood : ℕ → List ℕ
  means : ℕ → Option ℚ
  similarity_matrix : ℕ → ℕ → Option ℚ
  knn_type : BBCF.KnnType
  knn_k : ℕ

/-- Outcome of `BiAKNN.estimate`: `(prediction, {"actual_k": k})` or a raised
exception. -/
inductive BiEstimateResult where
  | ok : PyNum → ℕ → BiEstimateResult
  | err : PyErr → BiEstimateResult
  deriving DecidableEq, Repr

/-- `BiAKNN.estimate(user, item)` from `recommenders/knn_based_recommenders.py`.

`fillSim` stands for `compute_neighborhood_cosine_similarity`, which the
source imports from `recommenders/common.py` but whose definition is not part
of this snapshot; per the spec it lazily fills the row of the shared
similarity matrix for `x` against the user's neighborhood and the claims
below hold for every such function, so it is taken as a parameter.

With an empty neighborhood the method returns `(self.means[x], {"actual_k": 0})`
— a numeric result, not a `PredictionImpossible`.  On the successful path the
source unpacks `prediction, actual_k = calculate_weighted_rating(...)`, but
that function returns a single float, so the unpacking raises `TypeError`. -/
def biaknn_estimate
    (fillSim : (ℕ → ℕ → Option ℚ) → (ℕ → ℕ → Option ℚ) → ℕ → List ℕ → (ℕ → ℕ → Option ℚ))
    (mdl : BiModel) (user item : ℕ) : BiEstimateResult :=
  if ¬ (user < mdl.nUsers ∧ item < mdl.nItems) then .err .unknownEntity
  else
    let x := match mdl.knn_type with | .user => user | .item => item
    let y := match mdl.knn_type with | .user => item | .item => user
    let dataset : ℕ → ℕ → Option ℚ := match mdl.knn_type with
      | .user => mdl.dataset
      | .item => fun r c => mdl.dataset c r
    let user_neighborhood := mdl.neighborhood user
    if user_neighborhood.length = 0 then .ok (toPyNum (mdl.means x)) 0
    else
      let sm := fillSim dataset mdl.similarity_matrix x user_neighborhood
      match get_k_top_neighbors x y dataset user_neighborhood sm mdl.means mdl.knn_k with
      | .error e => .err e
      | .ok (k_top_ratings, k_top_similarity, k_top_means) =>
        if k_top_ratings.length = 0 then .ok (toPyNum (mdl.means x)) 0
        else
          match calculate_weighted_rating (mdl.means x) k_top_ratings
              k_top_similarity k_top_means with
          | .error e => .err e
          | .ok _ =>
            -- `prediction, actual_k = calculate_weighted_rating(...)` unpacks
            -- the single returned float: TypeError.
            .err .typeErrorUnpack

end KnnBased

namespace FormalConceptAnalysis

theorem grecond_run (M : BMat) (c : ℚ) (hn : ¬ (M.n = 0 ∨ M.m = 0))
    (hc : 0 < c ∧ c ≤ 1) :
    grecond M c = grecondLoop M (countTrue M) c (countTrue M + 1) M [] 0 := by
  unfold grecond
  rw [if_neg hn, if_neg (not_not_intro hc)]

/-- The boolean factor product tests exactly coverage by some concept. -/
theorem boolMatMul_factor_iff (F : List Concept) (n m r c : ℕ) :
    ((boolMatMul (get_factor_matrices_from_concepts F n m).1
      (get_factor_matrices_from_concepts F n m).2).f r c = true) ↔ Covered F r c := by
  unfold boolMatMul get_factor_matrices_from_concepts Covered
  simp only [List.any_eq_true, List.mem_range, Bool.and_eq_true]
  constructor
  · rintro ⟨t, ht, h1, h2⟩
    match hFt : F[t]? with
    | none => rw [hFt] at h1; exact absurd h1 (by simp)
    | some b =>
      rw [hFt] at h1 h2
      exact ⟨b, List.getElem?_mem hFt, of_decide_eq_true h1, of_decide_eq_true h2⟩
  · rintro ⟨b, hb, h1, h2⟩
    obtain ⟨t, ht, hFt⟩ := List.getElem_of_mem hb
    refine ⟨t, ht, ?_, ?_⟩
    · rw [List.getElem?_eq_getElem ht, hFt]
      exact decide_eq_true h1
    · rw [List.getElem?_eq_getElem ht, hFt]
      exact decide_eq_true h2

/-- The state handed to the outer loop by `grecond` satisfies the invariant. -/
theorem initial_state_inv (M : BMat) : StateInv M M 0 :=
  ⟨⟨rfl, rfl, fun _ _ h => h⟩, Or.inr ⟨rfl, rfl⟩⟩

end FormalConceptAnalysis

namespace RecommendersCommon

open FormalConceptAnalysis

theorem concept_eq_of_parts {c d : Concept} (h1 : c.extent = d.extent)
    (h2 : c.intent = d.intent) : c = d := by
  cases c; cases d; simp_all

theorem mem_foldl_union1d (g : Concept → List ℕ) :
    ∀ (bs : List Concept) (acc : List ℕ) (x : ℕ),
      (x ∈ bs.foldl (fun a b => union1d a (g b)) acc ↔ x ∈ acc ∨ ∃ b ∈ bs, x ∈ g b) := by
  intro bs
  induction bs with
  | nil => intro acc x; simp
  | cons b rest ih =>
    intro acc x
    simp only [List.foldl_cons]
    rw [ih (union1d acc (g b)) x, mem_union1d]
    constructor
    · rintro ((h | h) | ⟨b2, hb2, hx⟩)
      · exact Or.inl h
      · exact Or.inr ⟨b, List.mem_cons_self b rest, h⟩
      · exact Or.inr ⟨b2, List.mem_cons_of_mem b hb2, hx⟩
    · rintro (h | ⟨b2, hb2, hx⟩)
      · exact Or.inl (Or.inl h)
      · rcases List.mem_cons.mp hb2 with rfl | hb2
        · exact Or.inl (Or.inr hx)
        · exact Or.inr ⟨b2, hb2, hx⟩

theorem sorted_foldl_union1d (g : Concept → List ℕ) :
    ∀ (bs : List Concept) (acc : List ℕ), acc.Sorted (· < ·) →
      (bs.foldl (fun a b => union1d a (g b)) acc).Sorted (· < ·) := by
  intro bs
  induction bs with
  | nil => intro acc h; exact h
  | cons b rest ih =>
    intro acc _
    simp only [List.foldl_cons]
    exact ih _ (sorted_union1d _ _)

theorem merge_biclusters_mem_extent (bs : List Concept) (x : ℕ) :
    x ∈ (merge_biclusters bs).extent ↔ ∃ b ∈ bs, x ∈ b.extent := by
  unfold merge_biclusters
  rw [mem_foldl_union1d]
  simp

theorem merge_biclusters_mem_intent (bs : List Concept) (x : ℕ) :
    x ∈ (merge_biclusters bs).intent ↔ ∃ b ∈ bs, x ∈ b.intent := by
  unfold merge_biclusters
  rw [mem_foldl_union1d]
  simp

theorem merge_biclusters_sorted_extent (bs : List Concept) :
    (merge_biclusters bs).extent.Sorted (· < ·) :=
  sorted_foldl_union1d _ bs [] (List.sorted_nil)

theorem merge_biclusters_sorted_intent (bs : List Concept) :
    (merge_biclusters bs).intent.Sorted (· < ·) :=
  sorted_foldl_union1d _ bs [] (List.sorted_nil)

theorem merge_biclusters_eq_of_mem_iff {bs cs : List Concept}
    (he : ∀ x, x ∈ (merge_biclusters bs).extent ↔ x ∈ (merge_biclusters cs).extent)
    (hi : ∀ x, x ∈ (merge_biclusters bs).intent ↔ x ∈ (merge_biclusters cs).intent) :
    merge_biclusters bs = merge_biclusters cs :=
  concept_eq_of_parts
    (sorted_lt_eq_of_mem_iff (merge_biclusters_sorted_extent bs)
      (merge_biclusters_sorted_extent cs) he)
    (sorted_lt_eq_of_mem_iff (merge_biclusters_sorted_intent bs)
      (merge_biclusters_sorted_intent cs) hi)

end RecommendersCommon

/-- Bounding the clamped-denominator quotient: whatever the square-root
evaluates to, the division by `max (sqrt s) eps` cannot exceed `|num| / eps`
in absolute value — in particular it is a finite real, never an infinity. -/
theorem abs_div_max_sqrt_le (num s : ℝ) :
    |num / max (Real.sqrt s) ((RecommendersCommon.eps : ℚ) : ℝ)| ≤
      |num| / ((RecommendersCommon.eps : ℚ) : ℝ) := by
  have heps : (0:ℝ) < ((RecommendersCommon.eps : ℚ) : ℝ) := by
    norm_num [RecommendersCommon.eps]
  have hden : ((RecommendersCommon.eps : ℚ) : ℝ) ≤
      max (Real.sqrt s) ((RecommendersCommon.eps : ℚ) : ℝ) := le_max_right _ _
  have hdenpos : (0:ℝ) < max (Real.sqrt s) ((RecommendersCommon.eps : ℚ) : ℝ) :=
    lt_of_lt_of_le heps hden
  rw [abs_div, abs_of_pos hdenpos]
  exact div_le_div_of_nonneg_left (abs_nonneg num) heps hden

section Claims

open FormalConceptAnalysis RecommendersCommon

/-- The binary matrix `[[T,T,F],[T,T,T],[F,T,T]]` of the spec's concrete
GreConD scenario. -/
def exampleMatrix : BMat :=
  ⟨3, 3, fun r c =>
    (([[true, true, false], [true, true, true], [false, true, true]].getD r []).getD c false)⟩

/-- An all-False binary matrix. -/
def allFalseMatrix : BMat := ⟨2, 2, fun _ _ => false⟩

/-- Claim C4 counterexample: on the all-False 2x2 matrix `grecond` raises
`ZeroDivisionError` (the division `np.count_nonzero(U) / 0` on the first loop
iteration), not a precondition-violation `AssertionError`: the claim's
"fails fast with a precondition-violation error ... nor performs a division
by zero" is false on the code. -/
theorem grecond_all_false_zero_division :
    grecond allFalseMatrix 1 = .error .zeroDivisionError ∧
    grecond allFalseMatrix 1 ≠ .error .assertionError := by
  have h : grecond allFalseMatrix 1 = .error .zeroDivisionError := rfl
  refine ⟨h, ?_⟩
  rw [h]
  intro hbad
  injection hbad with h2
  exact PyErr.noConfusion h2

/-- Claim C4 (amended): on every all-False matrix that passes the input
assertions, `grecond` fails fast on the first iteration of its outer loop —
it neither loops forever nor returns — but the failure is a
`ZeroDivisionError` from `np.count_nonzero(U) / initial_number_of_trues`,
because the asserted preconditions do not reject a matrix with no True cell. -/
theorem grecond_all_false_fails_fast (M : BMat) (hn : 0 < M.n) (hm : 0 < M.m)
    (hz : countTrue M = 0) (c : ℚ) (hc0 : 0 < c) (hc1 : c ≤ 1) :
    grecond M c = .error .zeroDivisionError := by
  rw [grecond_run M c (by omega) ⟨hc0, hc1⟩, hz]
  simp only [grecondLoop]
  rw [if_pos (show c > 0 from hc0)]
  simp

/-- Claim C4 witness: the amended theorem at the concrete all-False matrix. -/
theorem grecond_all_false_fails_fast_witness :
    grecond allFalseMatrix (1/2) = .error .zeroDivisionError :=
  grecond_all_false_fails_fast allFalseMatrix (by decide) (by decide) (by decide)
    (1/2) (by norm_num) (by norm_num)

/-- Claim C5: for every binary matrix with at least one True cell, `grecond`
at coverage `1.0` returns a non-empty concept list whose factor matrices
satisfy `Af @ Bf == I` exactly (entrywise over the matrix), with achieved
coverage exactly `1.0`. -/
theorem grecond_full_reconstruction (M : BMat) (hn : 0 < M.n) (hm : 0 < M.m)
    (htot : 0 < countTrue M) :
    ∃ F, grecond M 1 = .ok (F, 1) ∧ F ≠ [] ∧
      ∀ r, r < M.n → ∀ c, c < M.m →
        (boolMatMul (get_factor_matrices_from_concepts F M.n M.m).1
          (get_factor_matrices_from_concepts F M.n M.m).2).f r c = M.f r c := by
  obtain ⟨F2, heq, hrect, hcov⟩ := grecondLoop_full M htot (countTrue M + 1) M [] 0
    (initial_state_inv M) (by omega)
    (fun b hb => absurd hb (List.not_mem_nil b))
    (fun r c _ _ hM => Or.inl hM)
  obtain ⟨r0, c0, hr0, hc0, hf0⟩ := countTrue_pos_elim htot
  obtain ⟨b0, hb0, _, _⟩ := hcov r0 c0 hr0 hc0 hf0
  refine ⟨F2, ?_, List.ne_nil_of_mem hb0, ?_⟩
  · rw [grecond_run M 1 (by omega) (by norm_num)]
    exact heq
  · intro r hr c hc
    by_cases hM : M.f r c = true
    · rw [hM]
      exact (boolMatMul_factor_iff F2 M.n M.m r c).mpr (hcov r c hr hc hM)
    · have hMf : M.f r c = false := by
        cases h : M.f r c
        · rfl
        · exact absurd h hM
      rw [hMf]
      cases hE : (boolMatMul (get_factor_matrices_from_concepts F2 M.n M.m).1
          (get_factor_matrices_from_concepts F2 M.n M.m).2).f r c
      · rfl
      · exfalso
        obtain ⟨b, hb, hbe, hbi⟩ := (boolMatMul_factor_iff F2 M.n M.m r c).mp hE
        exact hM (hrect b hb r hbe c hbi)

/-- Claim C5 witness: the reconstruction theorem at `[[T,T,F],[T,T,T],[F,T,T]]`. -/
theorem grecond_full_reconstruction_witness :
    ∃ F, grecond exampleMatrix 1 = .ok (F, 1) ∧ F ≠ [] ∧
      ∀ r, r < exampleMatrix.n → ∀ c, c < exampleMatrix.m →
        (boolMatMul (get_factor_matrices_from_concepts F exampleMatrix.n exampleMatrix.m).1
          (get_factor_matrices_from_concepts F exampleMatrix.n exampleMatrix.m).2).f r c =
          exampleMatrix.f r c :=
  grecond_full_reconstruction exampleMatrix (by decide) (by decide) (by decide)

/-- Claim C6: for every binary matrix with a True cell and coverage targets
`0 < c1 <= c2 <= 1`, `grecond` at `c2` returns at least as many concepts and
at least as much achieved coverage as at `c1`. -/
theorem grecond_coverage_monotone (M : BMat) (hn : 0 < M.n) (hm : 0 < M.m)
    (htot : 0 < countTrue M) (c1 c2 : ℚ) (hc0 : 0 < c1) (h12 : c1 ≤ c2)
    (hc2 : c2 ≤ 1) :
    ∃ F1 cov1 F2 cov2,
      grecond M c1 = .ok (F1, cov1) ∧ grecond M c2 = .ok (F2, cov2) ∧
      F1.length ≤ F2.length ∧ cov1 ≤ cov2 := by
  obtain ⟨F1, cov1, F2, cov2, h1, h2, h3, h4⟩ :=
    grecondLoop_le M c1 c2 h12 hc2 htot (countTrue M + 1) M [] 0
      (initial_state_inv M) (by omega)
  refine ⟨F1, cov1, F2, cov2, ?_, ?_, h3, h4⟩
  · rw [grecond_run M c1 (by omega) ⟨hc0, le_trans h12 hc2⟩]
    exact h1
  · rw [grecond_run M c2 (by omega) ⟨lt_of_lt_of_le hc0 h12, hc2⟩]
    exact h2

/-- Claim C6 witness: coverage monotonicity at the concrete matrix with
targets `1/2 <= 1`. -/
theorem grecond_coverage_monotone_witness :
    ∃ F1 cov1 F2 cov2,
      grecond exampleMatrix (1/2) = .ok (F1, cov1) ∧
      grecond exampleMatrix 1 = .ok (F2, cov2) ∧
      F1.length ≤ F2.length ∧ cov1 ≤ cov2 :=
  grecond_coverage_monotone exampleMatrix (by decide) (by decide) (by decide)
    (1/2) 1 (by norm_num) (by norm_num) (by norm_num)

/-- Claim C10: `user_pattern_similarity` always lies in `[0, 1]`; an empty
pattern intent yields `0.0` through the explicit guard rather than a division
by zero; `weight_frequency` always equals the pattern's extent size times
that ratio, and on the spec's concrete example
`weight_frequency([1], ({1,2,3,4},{1}))` equals `4.0`. -/
theorem user_pattern_similarity_bounds :
    (∀ (user : List ℕ) (pattern : Concept),
      0 ≤ user_pattern_similarity user pattern ∧
      user_pattern_similarity user pattern ≤ 1 ∧
      (pattern.intent = [] → user_pattern_similarity user pattern = 0) ∧
      weight_frequency user pattern =
        (pattern.extent.length : ℚ) * user_pattern_similarity user pattern) ∧
    weight_frequency [1] ⟨[1, 2, 3, 4], [1]⟩ = 4 := by
  constructor
  · intro user pattern
    refine ⟨?_, ?_, ?_, rfl⟩
    · simp only [user_pattern_similarity]
      by_cases h : pattern.intent.length = 0
      · rw [if_pos h]
      · rw [if_neg h]
        positivity
    · simp only [user_pattern_similarity]
      by_cases h : pattern.intent.length = 0
      · rw [if_pos h]; norm_num
      · rw [if_neg h]
        have hlen : (0:ℚ) < (pattern.intent.length : ℚ) := by
          have : 0 < pattern.intent.length := Nat.pos_of_ne_zero h
          exact_mod_cast this
        rw [div_le_one hlen]
        exact_mod_cast length_intersect1d_le_right user pattern.intent
    · intro hempty
      simp only [user_pattern_similarity]
      rw [if_pos (by rw [hempty]; rfl)]
  · have h1 : (intersect1d [1] ([1] : List ℕ)).length = 1 := by decide
    simp only [weight_frequency, user_pattern_similarity, h1]
    norm_num

/-- Claim C7 counterexample: the merge in `recommenders/common.py` has no
precondition check — merging the empty list returns the empty bicluster
normally, so "merging an empty list is a precondition violation" is false for
this cited implementation. -/
theorem merge_biclusters_empty_returns :
    RecommendersCommon.merge_biclusters [] = ⟨[], []⟩ := rfl

/-- Claim C7 (amended): both merge implementations compute extent and intent
as set unions of the inputs' extents and intents, and the operation is
commutative and associative (here even as array equality, since `np.union1d`
returns sorted unique arrays); the `knn_based_recommenders.py` version
rejects the empty list with an `AssertionError` and otherwise agrees with the
`recommenders/common.py` version, but the latter accepts the empty list and
returns the empty bicluster. -/
theorem merge_biclusters_union_comm_assoc :
    (∀ (bs : List Concept) (x : ℕ),
      (x ∈ (RecommendersCommon.merge_biclusters bs).extent ↔ ∃ b ∈ bs, x ∈ b.extent) ∧
      (x ∈ (RecommendersCommon.merge_biclusters bs).intent ↔ ∃ b ∈ bs, x ∈ b.intent)) ∧
    (∀ A B : Concept, RecommendersCommon.merge_biclusters [A, B] =
      RecommendersCommon.merge_biclusters [B, A]) ∧
    (∀ A B C : Concept,
      RecommendersCommon.merge_biclusters [RecommendersCommon.merge_biclusters [A, B], C] =
      RecommendersCommon.merge_biclusters [A, RecommendersCommon.merge_biclusters [B, C]]) ∧
    KnnBased.merge_biclusters [] = .error .assertionError ∧
    (∀ bs : List Concept, bs ≠ [] → (∀ b ∈ bs, b.extent ≠ [] ∧ b.intent ≠ []) →
      KnnBased.merge_biclusters bs = .ok (RecommendersCommon.merge_biclusters bs)) := by
  refine ⟨?_, ?_, ?_, rfl, ?_⟩
  · intro bs x
    exact ⟨merge_biclusters_mem_extent bs x, merge_biclusters_mem_intent bs x⟩
  · intro A B
    refine merge_biclusters_eq_of_mem_iff (fun x => ?_) (fun x => ?_)
    · rw [merge_biclusters_mem_extent, merge_biclusters_mem_extent]
      constructor
      · rintro ⟨b, hb, hx⟩
        rcases List.mem_cons.mp hb with rfl | hb
        · exact ⟨b, by simp, hx⟩
        · rcases List.mem_cons.mp hb with rfl | hb
          · exact ⟨b, by simp, hx⟩
          · exact absurd hb (List.not_mem_nil _)
      · rintro ⟨b, hb, hx⟩
        rcases List.mem_cons.mp hb with rfl | hb
        · exact ⟨b, by simp, hx⟩
        · rcases List.mem_cons.mp hb with rfl | hb
          · exact ⟨b, by simp, hx⟩
          · exact absurd hb (List.not_mem_nil _)
    · rw [merge_biclusters_mem_intent, merge_biclusters_mem_intent]
      constructor
      · rintro ⟨b, hb, hx⟩
        rcases List.mem_cons.mp hb with rfl | hb
        · exact ⟨b, by simp, hx⟩
        · rcases List.mem_cons.mp hb with rfl | hb
          · exact ⟨b, by simp, hx⟩
          · exact absurd hb (List.not_mem_nil _)
      · rintro ⟨b, hb, hx⟩
        rcases List.mem_cons.mp hb with rfl | hb
        · exact ⟨b, by simp, hx⟩
        · rcases List.mem_cons.mp hb with rfl | hb
          · exact ⟨b, by simp, hx⟩
          · exact absurd hb (List.not_mem_nil _)
  · intro A B C
    refine merge_biclusters_eq_of_mem_iff (fun x => ?_) (fun x => ?_)
    · rw [merge_biclusters_mem_extent, merge_biclusters_mem_extent]
      constructor
      · rintro ⟨b, hb, hx⟩
        rcases List.mem_cons.mp hb with rfl | hb
        · rcases (merge_biclusters_mem_extent [A, B] x).mp hx with ⟨b2, hb2, hx2⟩
          rcases List.mem_cons.mp hb2 with rfl | hb2
          · exact ⟨b2, by simp, hx2⟩
          · rcases List.mem_cons.mp hb2 with rfl | hb2
            · refine ⟨RecommendersCommon.merge_biclusters [b2, C], by simp, ?_⟩
              rw [merge_biclusters_mem_extent]
              exact ⟨b2, by simp, hx2⟩
            · exact absurd hb2 (List.not_mem_nil _)
        · rcases List.mem_cons.mp hb with rfl | hb
          · refine ⟨RecommendersCommon.merge_biclusters [B, b], by simp, ?_⟩
            rw [merge_biclusters_mem_extent]
            exact ⟨b, by simp, hx⟩
          · exact absurd hb (List.not_mem_nil _)
      · rintro ⟨b, hb, hx⟩
        rcases List.mem_cons.mp hb with rfl | hb
        · exact ⟨RecommendersCommon.merge_biclusters [b, B], by simp,
            (merge_biclusters_mem_extent [b, B] x).mpr ⟨b, by simp, hx⟩⟩
        · rcases List.mem_cons.mp hb with rfl | hb
          · rcases (merge_biclusters_mem_extent [B, C] x).mp hx with ⟨b2, hb2, hx2⟩
            rcases List.mem_cons.mp hb2 with rfl | hb2
            · exact ⟨RecommendersCommon.merge_biclusters [A, b2], by simp,
                (merge_biclusters_mem_extent [A, b2] x).mpr ⟨b2, by simp, hx2⟩⟩
            · rcases List.mem_cons.mp hb2 with rfl | hb2
              · exact ⟨b2, by simp, hx2⟩
              · exact absurd hb2 (List.not_mem_nil _)
          · exact absurd hb (List.not_mem_nil _)
    · rw [merge_biclusters_mem_intent, merge_biclusters_mem_intent]
      constructor
      · rintro ⟨b, hb, hx⟩
        rcases List.mem_cons.mp hb with rfl | hb
        · rcases (merge_biclusters_mem_intent [A, B] x).mp hx with ⟨b2, hb2, hx2⟩
          rcases List.mem_cons.mp hb2 with rfl | hb2
          · exact ⟨b2, by simp, hx2⟩
          · rcases List.mem_cons.mp hb2 with rfl | hb2
            · refine ⟨RecommendersCommon.merge_biclusters [b2, C], by simp, ?_⟩
              rw [merge_biclusters_mem_intent]
              exact ⟨b2, by simp, hx2⟩
            · exact absurd hb2 (List.not_mem_nil _)
        · rcases List.mem_cons.mp hb with rfl | hb
          · refine ⟨RecommendersCommon.merge_biclusters [B, b], by simp, ?_⟩
            rw [merge_biclusters_mem_intent]
            exact ⟨b, by simp, hx⟩
          · exact absurd hb (List.not_mem_nil _)
      · rintro ⟨b, hb, hx⟩
        rcases List.mem_cons.mp hb with rfl | hb
        · exact ⟨RecommendersCommon.merge_biclusters [b, B], by simp,
            (merge_biclusters_mem_intent [b, B] x).mpr ⟨b, by simp, hx⟩⟩
        · rcases List.mem_cons.mp hb with rfl | hb
          · rcases (merge_biclusters_mem_intent [B, C] x).mp hx with ⟨b2, hb2, hx2⟩
            rcases List.mem_cons.mp hb2 with rfl | hb2
            · exact ⟨RecommendersCommon.merge_biclusters [A, b2], by simp,
                (merge_biclusters_mem_intent [A, b2] x).mpr ⟨b2, by simp, hx2⟩⟩
            · rcases List.mem_cons.mp hb2 with rfl | hb2
              · exact ⟨b2, by simp, hx2⟩
              · exact absurd hb2 (List.not_mem_nil _)
          · exact absurd hb (List.not_mem_nil _)
  · intro bs hne hb
    unfold KnnBased.merge_biclusters
    rw [if_neg (fun h => hne (List.length_eq_zero.mp h)),
      if_neg (not_not_intro (List.all_eq_true.mpr (fun b hbm =>
        decide_eq_true (List.length_pos.mpr (hb b hbm).1)))),
      if_neg (not_not_intro (List.all_eq_true.mpr (fun b hbm =>
        decide_eq_true (List.length_pos.mpr (hb b hbm).2))))]

/-- A strategy callable that always reports NaN; a stand-in argument for
strategy parameters at positions where the claim under test never invokes
them. -/
def noStrategy : Strategy := fun _ _ _ _ => none

/-- A similarity-matrix fill function that leaves the matrix unchanged; a
stand-in for the `compute_neighborhood_cosine_similarity` parameter at
positions where the claim under test never reads its output. -/
def idFill : (ℕ → ℕ → Option ℚ) → (ℕ → ℕ → Option ℚ) → ℕ → List ℕ → (ℕ → ℕ → Option ℚ) :=
  fun _ sm _ _ => sm

/-- A fitted BiAKNN state whose user 0 has an empty neighborhood and mean 3. -/
def biaknnEmptyNbModel : KnnBased.BiModel :=
  ⟨2, 2, fun _ _ => some 1, fun _ => [], fun _ => some 3, fun _ _ => none, .user, 5⟩

/-- Claim C1 counterexample: `BiAKNN.estimate` on a known (user, item) pair
with an empty neighborhood returns the numeric prediction
`(self.means[x], {"actual_k": 0})` — it does not raise "insufficient
neighbors", refuting the claim for this estimator. -/
theorem biaknn_empty_neighborhood_returns_mean :
    KnnBased.biaknn_estimate idFill biaknnEmptyNbModel 0 1 = .ok (PyNum.fin 3) 0 ∧
    (biaknnEmptyNbModel.neighborhood 0).length = 0 := ⟨rfl, rfl⟩

/-- Claim C1 (amended): on a known (user, item) pair whose neighborhood is
empty, `BBCF.estimate` fails with exactly the "Not enough neighbors"
prediction failure (no other exception, no numeric return), while
`BiAKNN.estimate` instead returns the stored user/item mean with
`actual_k = 0` — an abstention value rather than a prediction failure. -/
theorem empty_neighborhood_behavior :
    (∀ (p a : Strategy) (mdl : BBCF.Model) (user item : ℕ),
      user < mdl.nUsers → item < mdl.nItems →
      ((mdl.neighborhood user).extent = [] ∨ (mdl.neighborhood user).intent = []) →
      BBCF.estimate p a mdl user item = .err .notEnoughNeighbors) ∧
    (∀ (fill : (ℕ → ℕ → Option ℚ) → (ℕ → ℕ → Option ℚ) → ℕ → List ℕ → (ℕ → ℕ → Option ℚ))
      (mdl : KnnBased.BiModel) (user item : ℕ),
      user < mdl.nUsers → item < mdl.nItems →
      mdl.neighborhood user = [] →
      KnnBased.biaknn_estimate fill mdl user item =
        .ok (toPyNum (mdl.means (match mdl.knn_type with | .user => user | .item => item))) 0) := by
  constructor
  · intro p a mdl user item hu hi hemp
    have hcond : ¬ anyNonzero (mdl.neighborhood user).extent = true ∨
        ¬ anyNonzero (mdl.neighborhood user).intent = true := by
      rcases hemp with h | h
      · left; rw [h]; simp [anyNonzero]
      · right; rw [h]; simp [anyNonzero]
    simp only [BBCF.estimate]
    rw [if_neg (not_not_intro ⟨hu, hi⟩), if_pos hcond]
  · intro fill mdl user item hu hi hemp
    simp only [KnnBased.biaknn_estimate]
    rw [if_neg (not_not_intro ⟨hu, hi⟩), if_pos (by rw [hemp]; rfl)]

/-- Claim C1 witness: the amended theorem applied at concrete states — the
BBCF half at a model with an empty extent, the BiAKNN half at
`biaknnEmptyNbModel`. -/
theorem empty_neighborhood_behavior_witness :
    BBCF.estimate noStrategy noStrategy
      ⟨1, 1, fun _ _ => some 1, fun _ => ⟨[], [5]⟩, fun _ => some 1, fun _ => some 1,
        .user, 5, none, fun _ => none⟩ 0 0 = .err .notEnoughNeighbors ∧
    KnnBased.biaknn_estimate idFill biaknnEmptyNbModel 0 1 =
      .ok (toPyNum (biaknnEmptyNbModel.means 0)) 0 :=
  ⟨empty_neighborhood_behavior.1 noStrategy noStrategy _ 0 0 (by decide) (by decide)
      (Or.inl rfl),
    empty_neighborhood_behavior.2 idFill biaknnEmptyNbModel 0 1 (by decide) (by decide) rfl⟩

/-- A cache holding the (non-NaN) value `1/2` at the diagonal cell (0, 0). -/
def c2PoisonedCache : SimCache := ⟨fun a b => if a = 0 ∧ b = 0 then some (1/2) else none⟩

/-- An all-NaN (empty) similarity cache. -/
def c2EmptyCache : SimCache := ⟨fun _ _ => none⟩

/-- Claim C2 counterexample: `get_similarity(i, i, ...)` does not return 1.0
for every cache state — a non-NaN cached diagonal value is returned as-is —
and the identity short-circuit does not bypass the cache write: on a
diagonal miss the value 1.0 is written into the cache. -/
theorem get_similarity_cache_first_counterexample :
    (get_similarity 0 0 [] [] (some c2PoisonedCache) noStrategy).value = some (1/2) ∧
    (get_similarity 0 0 [] [] (some c2PoisonedCache) noStrategy).value ≠ some 1 ∧
    ((get_similarity 0 0 [] [] (some c2EmptyCache) noStrategy).cache.map
      (fun m => m.get 0 0)) = some (some 1) := by
  refine ⟨rfl, ?_, rfl⟩
  intro h
  rw [show (get_similarity 0 0 [] [] (some c2PoisonedCache) noStrategy).value =
    some (1/2) from rfl] at h
  injection h with h2
  norm_num at h2

/-- Claim C2 (amended): the cache-or-compute contract of `get_similarity`.
The cache is consulted first, so a non-NaN `(i, j)` entry is returned as-is
even when `i = j`.  On a miss with `i = j` the value `1.0` is returned
without invoking the strategy, but it is written into the cache (at `(i, j)`
and `(j, i)`).  On a miss with `i ≠ j` the strategy computes the value and it
is written into both cells.  The symmetric write changes no other cell.
Without a cache, no write happens and the identity short-circuit still
returns `1.0` without invoking the strategy. -/
theorem get_similarity_contract (i j : ℕ) (dataset : RMat) (means : RVec)
    (mtx : SimCache) (strategy : Strategy) :
    (∀ v, mtx.get i j = some v →
      get_similarity i j dataset means (some mtx) strategy = ⟨some v, some mtx, false⟩) ∧
    (mtx.get i j = none → i = j →
      get_similarity i j dataset means (some mtx) strategy =
        ⟨some 1, some ((mtx.write i j (some 1)).write j i (some 1)), false⟩) ∧
    (mtx.get i j = none → i ≠ j →
      get_similarity i j dataset means (some mtx) strategy =
        ⟨strategy dataset i j means,
          some ((mtx.write i j (strategy dataset i j means)).write j i
            (strategy dataset i j means)), true⟩) ∧
    (∀ a b v2, ((mtx.write i j v2).write j i v2).get a b =
      if a = j ∧ b = i then v2 else if a = i ∧ b = j then v2 else mtx.get a b) ∧
    (i = j → get_similarity i j dataset means none strategy = ⟨some 1, none, false⟩) := by
  refine ⟨?_, ?_, ?_, ?_, ?_⟩
  · intro v h
    simp only [get_similarity, h]
  · intro h hij
    subst hij
    simp only [get_similarity, h, if_pos rfl]
    simp
  · intro h hij
    simp only [get_similarity, h, if_neg hij]
    simp [hij]
  · intro a b v2
    rfl
  · intro hij
    subst hij
    simp only [get_similarity, if_pos rfl]
    simp

/-- Claim C2 witness: the contract at concrete inputs — a hit on the poisoned
cache, a diagonal miss on the empty cache, and an off-diagonal miss. -/
theorem get_similarity_contract_witness :
    get_similarity 0 0 [] [] (some c2PoisonedCache) noStrategy =
      ⟨some (1/2), some c2PoisonedCache, false⟩ ∧
    get_similarity 1 1 [] [] (some c2EmptyCache) noStrategy =
      ⟨some 1, some ((c2EmptyCache.write 1 1 (some 1)).write 1 1 (some 1)), false⟩ ∧
    get_similarity 0 1 [] [] (some c2EmptyCache) noStrategy =
      ⟨noStrategy [] 0 1 [],
        some ((c2EmptyCache.write 0 1 (noStrategy [] 0 1 [])).write 1 0
          (noStrategy [] 0 1 [])), true⟩ :=
  ⟨(get_similarity_contract 0 0 [] [] c2PoisonedCache noStrategy).1 (1/2) rfl,
    (get_similarity_contract 1 1 [] [] c2EmptyCache noStrategy).2.1 rfl rfl,
    (get_similarity_contract 0 1 [] [] c2EmptyCache noStrategy).2.2.1 rfl (by decide)⟩

/-- The forced similarity strategy of the C3 failing input: similarity `1/2`
between submatrix rows 0 and 1, `-1/2` between rows 0 and 2. -/
def c3strategy : Strategy := fun _ i j _ =>
  if (i = 0 ∧ j = 1) ∨ (i = 1 ∧ j = 0) then some (1/2)
  else if (i = 0 ∧ j = 2) ∨ (i = 2 ∧ j = 0) then some (-(1/2))
  else some (1/3)

/-- The C3 failing input: a fitted user-based BBCF state with three users and
two items where user 0's neighborhood is `([0,1,2], [0,1])`, user 0 has not
rated item 1, and the two valid neighbors (users 1 and 2) get similarities
`1/2` and `-1/2` from the forced strategy, so the top-k similarity sum
cancels to zero. -/
def c3model : BBCF.Model :=
  ⟨3, 2,
   fun r c => (([[some 5, none], [some 1, some 4], [some 2, some 3]].getD r []).getD c none),
   fun _ => ⟨[0, 1, 2], [0, 1]⟩,
   fun u => [some 5, some (5/2), some (5/2)].getD u none,
   fun i => [some (8/3), some (7/2)].getD i none,
   .user, 5, some c3strategy, fun _ => none⟩

set_option maxHeartbeats 1000000 in
/-- Claim C3 (code bug): at the failing input the similarity sum of the
selected neighbors is `1/2 + (-1/2) = 0`, and `BBCF.estimate` returns a
non-finite prediction instead of raising the "Sum of similarities is zero"
prediction failure: the division is performed on numpy float64 scalars, which
yield `inf`/`NaN` on zero-division rather than the `ZeroDivisionError` the
except branch waits for. -/
theorem bbcf_zero_sum_returns_nonfinite :
    BBCF.estimate noStrategy noStrategy c3model 0 1 = .ok PyNum.nonfin ∧
    BBCF.estimate noStrategy noStrategy c3model 0 1 ≠ .err .sumOfSimilaritiesZero := by
  have heval : BBCF.estimate noStrategy noStrategy c3model 0 1 = .ok PyNum.nonfin := by
    have hA : (((1:ℚ)/2) = 0) = False := by norm_num
    have hB : ((-((1:ℚ)/2)) = 0) = False := by norm_num
    have hC : (((1:ℚ)/3) = 0) = False := by norm_num
    have hD : (((1:ℚ)) = 0) = False := by norm_num
    have hE : ((-((1:ℚ)/2)) < ((1:ℚ)/2)) = True := by norm_num
    have hF : (((1:ℚ)/2) < -((1:ℚ)/2)) = False := by norm_num
    have hG : (((1:ℚ)/2) < ((1:ℚ)/2)) = False := by norm_num
    norm_num [BBCF.estimate, c3model, c3strategy, anyNonzero, zip3, sortBySim, insertBySim,
      simLt, get_similarity_matrix, get_similarity, SimCache.write, toPyNum,
      PyNum.add, PyNum.mul, PyNum.sub, PyNum.divFin, List.range_succ, List.foldl_cons,
      List.filter, List.findIdx_cons, Option.some.injEq,
      hA, hB, hC, hD, hE, hF, hG]
    simp
  refine ⟨heval, ?_⟩
  rw [heval]
  intro hbad
  cases hbad

/-- The C9 state: a fitted BBCF model whose user 0 has the non-empty
neighborhood `([0], [1])` — the extent is exactly the singleton `[0]`. -/
def c9model : BBCF.Model :=
  ⟨2, 2, fun _ _ => some 1, fun _ => ⟨[0], [1]⟩, fun _ => some 1, fun _ => some 1,
   .user, 5, none, fun _ => none⟩

/-- Claim C9: a fitted BBCF model and a known (user, item) pair whose
neighborhood is non-empty (`extent = [0]`, `intent = [1]`) on which
`estimate` nevertheless raises "Not enough neighbors": the emptiness test
`extent.any()` is numpy truthiness over the index values, and the valid
member index 0 is falsy. -/
theorem bbcf_singleton_zero_extent_rejected :
    (c9model.neighborhood 0).extent = [0] ∧
    (c9model.neighborhood 0).intent = [1] ∧
    (c9model.neighborhood 0).extent ≠ [] ∧
    BBCF.estimate noStrategy noStrategy c9model 0 1 = .err .notEnoughNeighbors := by
  refine ⟨rfl, rfl, by decide, rfl⟩

/-- The numerator of `cosine_similarity` over the non-NaN overlap. -/
def cosineNumerator (dataset : RMat) (u v : ℕ) : ℚ :=
  dotQ
    (restrictVals (dataset.getD u [])
      (commonIndices (dataset.getD u []) (dataset.getD v [])))
    (restrictVals (dataset.getD v [])
      (commonIndices (dataset.getD u []) (dataset.getD v [])))

/-- The numerator of `pearson_similarity` (means subtracted over the overlap). -/
def pearsonNumerator (dataset : RMat) (u v : ℕ) (means : RVec) : ℚ :=
  dotQ
    ((restrictVals (dataset.getD u [])
        (commonIndices (dataset.getD u []) (dataset.getD v []))).map
      (fun q => q - (means.getD u none).getD 0))
    ((restrictVals (dataset.getD v [])
        (commonIndices (dataset.getD u []) (dataset.getD v []))).map
      (fun q => q - (means.getD v none).getD 0))

/-- The numerator of `adjusted_cosine_similarity` (per-coordinate means
subtracted over the overlap). -/
def adjustedNumerator (dataset : RMat) (u v : ℕ) (means : RVec) : ℚ :=
  dotQ
    (((restrictVals (dataset.getD u [])
          (commonIndices (dataset.getD u []) (dataset.getD v []))).zip
        ((commonIndices (dataset.getD u []) (dataset.getD v [])).map
          (fun k => (means.getD k none).getD 0))).map (fun p => p.1 - p.2))
    (((restrictVals (dataset.getD v [])
          (commonIndices (dataset.getD u []) (dataset.getD v []))).zip
        ((commonIndices (dataset.getD u []) (dataset.getD v [])).map
          (fun k => (means.getD k none).getD 0))).map (fun p => p.1 - p.2))

/-- A two-row dataset with full overlap. -/
def c8dataset : RMat := [[some 1, some 2], [some 1, some 3]]

/-- Means with a NaN entry for row 0. -/
def c8means : RVec := [none, some 2]

/-- Claim C8 counterexample: `pearson_similarity` returns NaN although the
overlap of the two vectors is non-empty — the subtracted mean of vector 0 is
NaN and poisons the computation — so "returns NaN exactly when the overlap is
empty" is false for the mean-centred similarities. -/
theorem pearson_nan_mean_counterexample :
    pearson_similarity c8dataset 0 1 c8means = none ∧
    commonIndices (c8dataset.getD 0 []) (c8dataset.getD 1 []) ≠ [] := by
  constructor
  · simp only [pearson_similarity]
    rw [if_neg (by decide)]
    rfl
  · decide

/-- Claim C8 (amended): `cosine_similarity` returns NaN exactly when the
non-NaN overlap is empty; `pearson_similarity` and
`adjusted_cosine_similarity` return NaN exactly when the overlap is empty or
a subtracted mean entry is NaN.  In every non-NaN case the returned value is
the overlap-restricted numerator divided by the eps-clamped denominator, and
its absolute value is bounded by `|numerator| / eps` — never an infinity. -/
theorem similarity_nan_and_clamp (dataset : RMat) (u v : ℕ) (means : RVec) :
    (cosine_similarity dataset u v means = none ↔
      commonIndices (dataset.getD u []) (dataset.getD v []) = []) ∧
    (commonIndices (dataset.getD u []) (dataset.getD v []) ≠ [] →
      ∃ x : ℝ, cosine_similarity dataset u v means = some x ∧
        |x| ≤ |((cosineNumerator dataset u v : ℚ) : ℝ)| / ((eps : ℚ) : ℝ)) ∧
    (pearson_similarity dataset u v means = none ↔
      (commonIndices (dataset.getD u []) (dataset.getD v []) = [] ∨
        means.getD u none = none ∨ means.getD v none = none)) ∧
    (commonIndices (dataset.getD u []) (dataset.getD v []) ≠ [] →
      (means.getD u none).isSome → (means.getD v none).isSome →
      ∃ x : ℝ, pearson_similarity dataset u v means = some x ∧
        |x| ≤ |((pearsonNumerator dataset u v means : ℚ) : ℝ)| / ((eps : ℚ) : ℝ)) ∧
    (adjusted_cosine_similarity dataset u v means = none ↔
      (commonIndices (dataset.getD u []) (dataset.getD v []) = [] ∨
        ((commonIndices (dataset.getD u []) (dataset.getD v [])).any
          (fun k => (means.getD k none).isNone)) = true)) ∧
    ((commonIndices (dataset.getD u []) (dataset.getD v [])) ≠ [] →
      ((commonIndices (dataset.getD u []) (dataset.getD v [])).any
        (fun k => (means.getD k none).isNone)) = false →
      ∃ x : ℝ, adjusted_cosine_similarity dataset u v means = some x ∧
        |x| ≤ |((adjustedNumerator dataset u v means : ℚ) : ℝ)| / ((eps : ℚ) : ℝ)) := by
  refine ⟨?_, ?_, ?_, ?_, ?_, ?_⟩
  · simp only [cosine_similarity]
    by_cases h : commonIndices (dataset.getD u []) (dataset.getD v []) = []
    · rw [if_pos h]
      exact ⟨fun _ => h, fun _ => rfl⟩
    · rw [if_neg h]
      exact ⟨fun hx => absurd hx (Option.some_ne_none _), fun hx => absurd hx h⟩
  · intro h
    simp only [cosine_similarity]
    rw [if_neg h]
    exact ⟨_, rfl, abs_div_max_sqrt_le _ _⟩
  · simp only [pearson_similarity]
    by_cases h : commonIndices (dataset.getD u []) (dataset.getD v []) = []
    · rw [if_pos h]
      exact ⟨fun _ => Or.inl h, fun _ => rfl⟩
    · rw [if_neg h]
      cases hmu : means.getD u none with
      | none =>
        exact ⟨fun _ => Or.inr (Or.inl rfl), fun _ => rfl⟩
      | some mu =>
        cases hmv : means.getD v none with
        | none =>
          exact ⟨fun _ => Or.inr (Or.inr rfl), fun _ => rfl⟩
        | some mv =>
          constructor
          · intro hx
            exact absurd hx (Option.some_ne_none _)
          · intro hx
            rcases hx with h3 | h3 | h3
            · exact absurd h3 h
            · exact absurd h3 (Option.some_ne_none _)
            · exact absurd h3 (Option.some_ne_none _)
  · intro h hmu hmv
    obtain ⟨mu, hmu'⟩ := Option.isSome_iff_exists.mp hmu
    obtain ⟨mv, hmv'⟩ := Option.isSome_iff_exists.mp hmv
    simp only [pearson_similarity]
    rw [if_neg h, hmu', hmv']
    refine ⟨_, rfl, ?_⟩
    have hnum : pearsonNumerator dataset u v means =
        dotQ ((restrictVals (dataset.getD u [])
            (commonIndices (dataset.getD u []) (dataset.getD v []))).map (fun q => q - mu))
          ((restrictVals (dataset.getD v [])
            (commonIndices (dataset.getD u []) (dataset.getD v []))).map (fun q => q - mv)) := by
      unfold pearsonNumerator
      rw [hmu', hmv']
      rfl
    rw [hnum]
    exact abs_div_max_sqrt_le _ _
  · simp only [adjusted_cosine_similarity]
    by_cases h : commonIndices (dataset.getD u []) (dataset.getD v []) = []
    · rw [if_pos h]
      exact ⟨fun _ => Or.inl h, fun _ => rfl⟩
    · rw [if_neg h]
      by_cases h2 : ((commonIndices (dataset.getD u []) (dataset.getD v [])).any
          (fun k => (means.getD k none).isNone)) = true
      · rw [if_pos h2]
        exact ⟨fun _ => Or.inr h2, fun _ => rfl⟩
      · rw [if_neg h2]
        constructor
        · intro hx
          exact absurd hx (Option.some_ne_none _)
        · intro hx
          rcases hx with h3 | h3
          · exact absurd h3 h
          · exact absurd h3 h2
  · intro h h2
    simp only [adjusted_cosine_similarity]
    rw [if_neg h, if_neg (by rw [h2]; exact Bool.false_ne_true)]
    refine ⟨_, rfl, ?_⟩
    have hnum : adjustedNumerator dataset u v means =
        dotQ
          (((restrictVals (dataset.getD u [])
              (commonIndices (dataset.getD u []) (dataset.getD v []))).zip
            ((commonIndices (dataset.getD u []) (dataset.getD v [])).map
              (fun k => (means.getD k none).getD 0))).map (fun p => p.1 - p.2))
          (((restrictVals (dataset.getD v [])
              (commonIndices (dataset.getD u []) (dataset.getD v []))).zip
            ((commonIndices (dataset.getD u []) (dataset.getD v [])).map
              (fun k => (means.getD k none).getD 0))).map (fun p => p.1 - p.2)) := rfl
    rw [hnum]
    exact abs_div_max_sqrt_le _ _

/-- Claim C8 witness: the amended theorem at a concrete dataset with non-empty
overlap and non-NaN means, extracting the non-NaN cases. -/
theorem similarity_nan_and_clamp_witness :
    (∃ x : ℝ, cosine_similarity c8dataset 0 1 [some 2, some 2] = some x ∧
      |x| ≤ |((cosineNumerator c8dataset 0 1 : ℚ) : ℝ)| / ((eps : ℚ) : ℝ)) ∧
    (∃ x : ℝ, pearson_similarity c8dataset 0 1 [some 2, some 2] = some x ∧
      |x| ≤ |((pearsonNumerator c8dataset 0 1 [some 2, some 2] : ℚ) : ℝ)| / ((eps : ℚ) : ℝ)) ∧
    (∃ x : ℝ, adjusted_cosine_similarity c8dataset 0 1 [some 2, some 2] = some x ∧
      |x| ≤ |((adjustedNumerator c8dataset 0 1 [some 2, some 2] : ℚ) : ℝ)| / ((eps : ℚ) : ℝ)) :=
  ⟨(similarity_nan_and_clamp c8dataset 0 1 [some 2, some 2]).2.1 (by decide),
    (similarity_nan_and_clamp c8dataset 0 1 [some 2, some 2]).2.2.2.1 (by decide)
      (by decide) (by decide),
    (similarity_nan_and_clamp c8dataset 0 1 [some 2, some 2]).2.2.2.2.2 (by decide)
      (by decide)⟩

end Claims
